import Mathlib

/-!
Verification of the inline-rendering core of `page2tei.py` (tei-viewer).

The development shallowly embeds the functions of the source file:
`parse_bool`, `parse_int`, `parse_custom_ops`, `slice_text_nodes`,
`append_text`, `build_styled_nodes`, and `build_inline_nodes_for_line`
together with its nested helpers (`render_plain_segment`,
`build_wrapper_element`, `populate_target_with_nodes`, `render_span`,
`_wrap_choice_in_persname_in_element`, `_wrap_choice_in_nodes_list`).

Python strings are modelled as `List Char`; `xml.etree` elements are
modelled by the inductive `Elem` carrying `tag`, attributes, `text`,
children and `tail`, exactly as ElementTree does.  `None` and the empty
string are identified (the source only ever observes truthiness of
`text`/`tail`).  Offsets follow the data model of the spec (non-negative
integers).
-/

namespace P2T

/-- Python character strings. -/
abbrev Str := List Char

/-- Whitespace in the sense of Python `\s` / `str.strip` (ASCII range). -/
def isWS (c : Char) : Bool :=
  c == ' ' || c == '\t' || c == '\n' || c == '\r' ||
    c == Char.ofNat 11 || c == Char.ofNat 12

/-- Python `\w` word characters (ASCII range). -/
def isWordChar (c : Char) : Bool :=
  c.isAlphanum || c == '_'

/-- Membership in Python `string.punctuation` (the 32 ASCII marks). -/
def isPunct (c : Char) : Bool :=
  let n := c.toNat
  (33 ≤ n && n ≤ 47) || (58 ≤ n && n ≤ 64) || (91 ≤ n && n ≤ 96) ||
    (123 ≤ n && n ≤ 126)

/-- Strip a trailing whitespace run, like the `(\s+)$` capture. -/
def dropTrail (s : Str) : Str :=
  (s.reverse.dropWhile isWS).reverse

/-- The trailing whitespace run of a string. -/
def takeTrail (s : Str) : Str :=
  (s.reverse.takeWhile isWS).reverse

/-- Python `str.strip()`. -/
def pyStrip (s : Str) : Str :=
  dropTrail (s.dropWhile isWS)

/-- Python slicing `text[s:e]` for non-negative clamped indices. -/
def slice (t : Str) (s e : Nat) : Str :=
  (t.drop s).take (e - s)

/-- Convert a Lean string literal to the character-list model. -/
def toStr (s : String) : Str := s.data

/-- Python truthiness of an optional string. -/
def pyTruthy : Option String → Bool
  | some v => v ≠ ""
  | none => false

/-- Python `a or b` on two optional strings. -/
def pyOr (a b : Option String) : Option String :=
  if pyTruthy a then a else b

/-- `parse_bool` from the source: membership of the stripped, lowered
spelling in `("1", "true", "yes", "y")`. -/
def parse_bool (v : String) : Bool :=
  let t : Str := (pyStrip (toStr v)).map Char.toLower
  t = toStr "1" || t = toStr "true" || t = toStr "yes" || t = toStr "y"

/-- One annotation record as produced by `parse_custom_ops`: a kind tag,
`offset`/`length`, and the remaining key/value attributes in insertion
order.  `end` is the derived `offset + length` (named `stop` since `end`
is reserved). -/
structure Op where
  kind : String
  offset : Nat
  length : Nat
  attrs : List (String × String)
deriving DecidableEq

/-- The computed `end` field of an op. -/
def Op.stop (o : Op) : Nat := o.offset + o.length

/-- Python `op.get(k)` on the attribute mapping. -/
def Op.get (o : Op) (k : String) : Option String := o.attrs.lookup k

/-- Python `op.get(k, d)`. -/
def Op.getD (o : Op) (k d : String) : String := (o.get k).getD d

/-- A throwaway op used as the `List.getD` default. -/
def dummyOp : Op := ⟨"", 0, 0, []⟩

/-- The priority table of `build_inline_nodes_for_line`: semantic
entity kinds are class 0, alternation/value kinds class 1, everything
else class 2. -/
def op_priority (k : String) : Nat :=
  if k = "person" ∨ k = "place" ∨ k = "ref" ∨ k = "unclear" then 0
  else if k = "abbrev" ∨ k = "sic" ∨ k = "regularised" ∨ k = "num" then 1
  else 2

/-- Stable ascending sort: ties keep their original relative order, and
a stable sort is uniquely determined by its key relation, so this models
Python `sorted`. -/
def pySort {α : Type} (le : α → α → Bool) (l : List α) : List α :=
  List.insertionSort (fun a b => le a b = true) l

/-- The sort key comparison `(offset asc, end desc, priority asc)` used
for the wrappers list (Python `sorted` is stable, and so is
`pySort`). -/
def wrapperLe (a b : Op) : Bool :=
  decide (a.offset < b.offset ∨
    (a.offset = b.offset ∧ (b.stop < a.stop ∨
      (a.stop = b.stop ∧ op_priority a.kind ≤ op_priority b.kind))))

/-- `abbrev`/`sic`/`regularised` — the alternation-pair kinds. -/
def isChoiceKind (k : String) : Bool :=
  k == "abbrev" || k == "sic" || k == "regularised"

def choice_ops (ops : List Op) : List Op :=
  ops.filter (fun o => isChoiceKind o.kind && decide (0 < o.length))

def person_ops (ops : List Op) : List Op :=
  ops.filter (fun o => o.kind == "person" && decide (0 < o.length))

def place_ops (ops : List Op) : List Op :=
  ops.filter (fun o => o.kind == "place" && decide (0 < o.length))

def ref_ops (ops : List Op) : List Op :=
  ops.filter (fun o => o.kind == "ref" && decide (0 < o.length))

def unclear_ops (ops : List Op) : List Op :=
  ops.filter (fun o => o.kind == "unclear" && decide (0 < o.length))

def num_ops (ops : List Op) : List Op :=
  ops.filter (fun o => o.kind == "num" && decide (0 < o.length))

def style_ops_of (ops : List Op) : List Op :=
  ops.filter (fun o => o.kind == "textStyle" && decide (0 < o.length))

/-- Kinds with a dedicated wrapper shape (plus `textStyle`). -/
def isKnownKind (k : String) : Bool :=
  isChoiceKind k || k == "num" || k == "person" || k == "place" ||
    k == "ref" || k == "unclear" || k == "textStyle"

def other_ops (ops : List Op) : List Op :=
  ops.filter (fun o => !isKnownKind o.kind && decide (0 < o.length))

/-- The wrappers list: primary ops concatenated by class and stably
sorted by `(offset, -end, priority)`. -/
def wrappersOf (ops : List Op) : List Op :=
  pySort wrapperLe
    (person_ops ops ++ place_ops ops ++ ref_ops ops ++ unclear_ops ops ++
      choice_ops ops ++ num_ops ops ++ other_ops ops)

/-- Interval containment `pw.offset ≤ w.offset ∧ pw.end ≥ w.end` used by
the parent scan. -/
def containsB (p w : Op) : Bool :=
  decide (p.offset ≤ w.offset ∧ w.stop ≤ p.stop)

/-- The parent scan of the containment builder: for index `i`, the first
`j` from `i-1` down to `0` whose interval contains that of `i`. -/
def parentOf (ws : List Op) (i : Nat) : Option Nat :=
  ((List.range i).reverse).find?
    (fun j => containsB (ws.getD j dummyOp) (ws.getD i dummyOp))

/-- The recorded children of index `p` (in increasing index order, the
order in which the source appends them). -/
def childrenOf (ws : List Op) (p : Nat) : List Nat :=
  (List.range ws.length).filter (fun i => parentOf ws i == some p)

/-- The root indices of the containment forest. -/
def rootsOf (ws : List Op) : List Nat :=
  (List.range ws.length).filter (fun i => (parentOf ws i).isNone)

theorem parentOf_lt {ws : List Op} {i j : Nat} (h : parentOf ws i = some j) :
    j < i := by
  have hm := List.mem_of_find?_eq_some h
  rw [List.mem_reverse, List.mem_range] at hm
  exact hm

/-- Fueled walk up the parent chain. -/
def isDescF (ws : List Op) : Nat → Nat → Nat → Bool
  | 0, _, _ => false
  | fuel + 1, i, a =>
    match parentOf ws i with
    | none => false
    | some p => p == a || isDescF ws fuel p a

/-- Descendant relation of the forest: `i` descends from `a` through the
parent chain (each parent index is smaller, so fuel `i` suffices). -/
def isDesc (ws : List Op) (i a : Nat) : Bool :=
  isDescF ws i i a

/-- ElementTree element: tag, attributes, text, children, tail. -/
inductive Elem where
  | mk (tag : String) (attrs : List (String × String)) (text : Str)
      (kids : List Elem) (tail : Str)

mutual

def elemBeq : Elem → Elem → Bool
  | .mk t1 a1 x1 k1 l1, .mk t2 a2 x2 k2 l2 =>
    t1 == t2 && a1 == a2 && x1 == x2 && elemsBeq k1 k2 && l1 == l2

def elemsBeq : List Elem → List Elem → Bool
  | [], [] => true
  | c :: cs, d :: ds => elemBeq c d && elemsBeq cs ds
  | _ :: _, [] => false
  | [], _ :: _ => false

end

mutual

theorem elemBeq_iff : ∀ a b : Elem, elemBeq a b = true ↔ a = b
  | .mk t1 a1 x1 k1 l1, .mk t2 a2 x2 k2 l2 => by
    simp only [elemBeq, Bool.and_eq_true, beq_iff_eq, Elem.mk.injEq]
    rw [elemsBeq_iff k1 k2]
    tauto

theorem elemsBeq_iff : ∀ as bs : List Elem, elemsBeq as bs = true ↔ as = bs
  | [], [] => by simp [elemsBeq]
  | c :: cs, d :: ds => by
    simp only [elemsBeq, Bool.and_eq_true, List.cons.injEq]
    rw [elemBeq_iff c d, elemsBeq_iff cs ds]
  | _ :: _, [] => by simp [elemsBeq]
  | [], _ :: _ => by simp [elemsBeq]

end

instance : DecidableEq Elem := fun a b => decidable_of_iff _ (elemBeq_iff a b)

def Elem.tag : Elem → String
  | .mk t _ _ _ _ => t

def Elem.attrs : Elem → List (String × String)
  | .mk _ a _ _ _ => a

def Elem.text : Elem → Str
  | .mk _ _ x _ _ => x

def Elem.kids : Elem → List Elem
  | .mk _ _ _ k _ => k

def Elem.tail : Elem → Str
  | .mk _ _ _ _ t => t

/-- A fresh element with the given tag, as `ET.Element(qn(tag))`. -/
def mkEl (tag : String) : Elem := .mk tag [] [] [] []

def Elem.withText (e : Elem) (x : Str) : Elem :=
  match e with
  | .mk t a _ k l => .mk t a x k l

def Elem.withKids (e : Elem) (k : List Elem) : Elem :=
  match e with
  | .mk t a x _ l => .mk t a x k l

def Elem.withTail (e : Elem) (l : Str) : Elem :=
  match e with
  | .mk t a x k _ => .mk t a x k l

def Elem.setAttr (e : Elem) (k v : String) : Elem :=
  match e with
  | .mk t a x ks l => .mk t (a ++ [(k, v)]) x ks l

/-- One item of a rendered node sequence: a plain text run or an element. -/
inductive Node where
  | txt (s : Str)
  | el (e : Elem)
deriving DecidableEq

def isElNode : Node → Bool
  | .el _ => true
  | .txt _ => false

/-- Add `s` to the tail of the last element of a child list. -/
def appendTailLast : List Elem → Str → List Elem
  | [], _ => []
  | [c], s => [c.withTail (c.tail ++ s)]
  | c :: cs, s => c :: appendTailLast cs s

/-- `append_text` from the source: text goes into `parent.text` when the
parent has no children, otherwise onto the tail of the last child. -/
def append_text (e : Elem) (s : Str) : Elem :=
  if s = [] then e
  else if e.kids = [] then e.withText (e.text ++ s)
  else e.withKids (appendTailLast e.kids s)

def appendChild (e : Elem) (c : Elem) : Elem :=
  e.withKids (e.kids ++ [c])

/-- Python `" ".join(...)`. -/
def joinSpace : List String → String
  | [] => ""
  | [x] => x
  | x :: xs => x ++ " " ++ joinSpace xs

/-- The `rend` labels of one style op, in source order. -/
def rend_of (o : Op) : List String :=
  (["bold", "italic", "underline", "superscript", "subscript"]).filter
    (fun k => o.getD k "false" == "true")

/-- The `(start, end, label)` ranges assembled by `build_styled_nodes`. -/
def ranges_of (sops : List Op) : List (Nat × Nat × String) :=
  sops.filterMap (fun o =>
    let r := rend_of o
    if r = [] then none else some (o.offset, o.stop, joinSpace r))

/-- Code-point lexicographic comparison on character lists (Python
string ordering). -/
def lexLe : Str → Str → Bool
  | [], _ => true
  | _ :: _, [] => false
  | a :: as, b :: bs =>
    if a.toNat < b.toNat then true
    else if b.toNat < a.toNat then false
    else lexLe as bs

def strLe (a b : String) : Bool := lexLe a.data b.data

/-- One consecutive cut pair of `slice_text_nodes` turned into a
`(start, end, segment, labels)` record, labels being the sorted set of
labels of ranges covering the segment. -/
def segFn (t : Str) (ranges : List (Nat × Nat × String)) (p : Nat × Nat) :
    Option (Nat × Nat × Str × List String) :=
  if p.1 = p.2 then none
  else some (p.1, p.2, slice t p.1 p.2,
    (pySort strLe
      (((ranges.filter (fun r =>
          decide (r.1 ≤ p.1) && decide (p.2 ≤ r.2.1) &&
            decide (r.1 < r.2.1))).map (fun r => r.2.2)).dedup)))

/-- The sorted set of (clamped) cut points of `slice_text_nodes`. -/
def cutsOf (t : Str) (ranges : List (Nat × Nat × String)) : List Nat :=
  pySort (fun a b => decide (a ≤ b))
    (0 :: t.length ::
      ranges.flatMap (fun r => [min t.length r.1, min t.length r.2.1])).dedup

/-- `slice_text_nodes`: cut the text at all (clamped) range boundaries
and return one record per nonempty segment. -/
def slice_text_nodes (t : Str) (ranges : List (Nat × Nat × String)) :
    List (Nat × Nat × Str × List String) :=
  ((cutsOf t ranges).zip (cutsOf t ranges).tail).filterMap (segFn t ranges)

/-- Punctuation-only test on a text (after stripping). -/
def punctOnly (s : Str) : Bool :=
  !(pyStrip s).isEmpty && (pyStrip s).all isPunct

/-- One step of the `build_styled_nodes` loop: plain text for unlabeled
or punctuation-only (`seg_stripped and all(ch in punctuation)`)
segments, a `<hi rend>` element otherwise. -/
def styledStep (par : Elem) (seg : Nat × Nat × Str × List String) : Elem :=
  match seg with
  | (_, _, sgt, labs) =>
    if labs = [] then append_text par sgt
    else if punctOnly sgt then append_text par sgt
    else appendChild par (.mk "hi" [("rend", joinSpace labs)] sgt [] [])

/-- `build_styled_nodes`: overlay `<hi rend>` styling on a text, forcing
punctuation-only labeled segments back to plain text. -/
def build_styled_nodes (parent : Elem) (t : Str) (sops : List Op) : Elem :=
  let ranges := ranges_of sops
  if ranges = [] then append_text parent t
  else (slice_text_nodes t ranges).foldl styledStep parent

/-- Turn the children of a styled holder into top-level nodes, clearing
tails into separate text runs. -/
def nodesOfKids (ks : List Elem) : List Node :=
  ks.flatMap (fun ch =>
    Node.el (ch.withTail []) ::
      if ch.tail ≠ [] then [Node.txt ch.tail] else [])

/-- `render_plain_segment`: a gap with no wrapper boundary, styled and
then flattened back into a node list (tails become separate text runs). -/
def render_plain_segment (text : Str) (sops : List Op) (s e : Nat) :
    List Node :=
  let segText := slice text s e
  if segText = [] then []
  else
    let segStyles := sops.filter (fun o =>
      decide (s ≤ o.offset) && decide (o.stop ≤ e))
    let tmp := build_styled_nodes (mkEl "tmp") segText segStyles
    (if tmp.text ≠ [] then [Node.txt tmp.text] else []) ++ nodesOfKids tmp.kids

/-- Strip the trailing whitespace run from the tail of the last child. -/
def stripLastTailWS : List Elem → List Elem
  | [] => []
  | [c] => [c.withTail (dropTrail c.tail)]
  | c :: cs => c :: stripLastTailWS cs

def lastTailOf : List Elem → Str
  | [] => []
  | [c] => c.tail
  | _ :: cs => lastTailOf cs

/-- The temporary holder of `populate_target_with_nodes`: strings merge
into text/tails, elements are appended. -/
def buildTmp (nodes : List Node) : Elem :=
  nodes.foldl (fun t n =>
    match n with
    | .txt s => append_text t s
    | .el e => appendChild t e) (mkEl "tmp")

/-- `populate_target_with_nodes`: pour a node list into a holder,
extract edge whitespace, move the rest into `target`, and return
`(lead, target, trail)`. -/
def populate_target_with_nodes (target : Elem) (nodes : List Node) :
    Str × Elem × Str :=
  let tmp := buildTmp nodes
  let lead := tmp.text.takeWhile isWS
  let txt1 := tmp.text.dropWhile isWS
  if tmp.kids = [] then
    (lead, target.withText (target.text ++ dropTrail txt1), takeTrail txt1)
  else
    (lead,
     (target.withText (target.text ++ txt1)).withKids
       (target.kids ++ stripLastTailWS tmp.kids),
     takeTrail (lastTailOf tmp.kids))

/-- Set `e[k] = w[k]` when the attribute is present on the op. -/
def setIfPresent (e : Elem) (w : Op) (k : String) : Elem :=
  match w.get k with
  | some v => e.setAttr k v
  | none => e

def mkChoiceEl (ks : List Elem) : Elem := .mk "choice" [] [] ks []

/-- The `<persName>` element built from a person op (shared between
`build_wrapper_element` and the repair pass, which use the same four
attributes). -/
def mkPers (p : Op) : Elem :=
  let e := setIfPresent (mkEl "persName") p "type"
  let e := match p.get "wikiData" with
    | some id => e.setAttr "ref" ("https://www.wikidata.org/wiki/" ++ id)
    | none => e
  let e := setIfPresent e p "firstname"
  if p.get "continued" = some "true" then e.setAttr "continued" "true" else e

/-- `build_wrapper_element`: create the node shape for one wrapper op
with its already-rendered inner nodes, always returning a
`(lead, element, trail)` triple (lead/trail empty when no edge
whitespace was extracted). -/
def build_wrapper_element (text : Str) (w : Op) (inner : List Node) :
    Str × Elem × Str :=
  let witness := slice text w.offset w.stop
  if w.kind = "abbrev" then
    let alt := w.getD "expansion" ""
    let pr := populate_target_with_nodes (mkEl "abbr") inner
    (pr.1, mkChoiceEl [pr.2.1, (mkEl "expan").withText (toStr alt)], pr.2.2)
  else if w.kind = "sic" then
    let alt := w.getD "correction" ""
    let pr := populate_target_with_nodes (mkEl "sic") inner
    (pr.1, mkChoiceEl [pr.2.1, (mkEl "corr").withText (toStr alt)], pr.2.2)
  else if w.kind = "regularised" then
    let alt := w.getD "original" ""
    let origAttr := pyOr (w.get "original") (w.get "orig")
    let regAttr := pyOr (w.get "regularised") (w.get "reg")
    let a1 := (mkEl "orig").withText
      (toStr (match origAttr with | some s => s | none => alt))
    match regAttr with
    | some r =>
      let filtered := inner.filter (fun n =>
        match n with
        | .txt s => !(pyStrip s == pyStrip witness)
        | .el _ => true)
      let elemChildren := filtered.filter isElNode
      if elemChildren = [] then
        ([], mkChoiceEl [a1, (mkEl "reg").withText (toStr r)], [])
      else
        let pr := populate_target_with_nodes (mkEl "tmp") elemChildren
        (pr.1,
         mkChoiceEl [a1, ((mkEl "reg").withText (toStr r)).withKids pr.2.1.kids],
         pr.2.2)
    | none =>
      let pr := populate_target_with_nodes (mkEl "reg") inner
      (pr.1, mkChoiceEl [a1, pr.2.1], pr.2.2)
  else if w.kind = "num" then
    let el0 := setIfPresent (setIfPresent (mkEl "num") w "type") w "value"
    populate_target_with_nodes el0 inner
  else if w.kind = "person" then
    populate_target_with_nodes (mkPers w) inner
  else if w.kind = "place" then
    let pr := populate_target_with_nodes (mkEl "placeName") inner
    let geo := (["country", "region", "settlement", "district"]).filterMap
      (fun k => (w.get k).map (fun v => Elem.mk k [] (toStr v) [] []))
    (pr.1, pr.2.1.withKids (pr.2.1.kids ++ geo), pr.2.2)
  else if w.kind = "ref" then
    let el0 := setIfPresent (setIfPresent (mkEl "ref") w "type") w "target"
    populate_target_with_nodes el0 inner
  else if w.kind = "unclear" then
    populate_target_with_nodes (setIfPresent (mkEl "unclear") w "reason") inner
  else
    let seg0 := (mkEl "seg").setAttr "type" w.kind
    let seg1 := (w.attrs.filter (fun p =>
      !(p.1 == "kind" || p.1 == "offset" || p.1 == "length" || p.1 == "end"))).foldl
      (fun e p => e.setAttr ("data-" ++ p.1) p.2) seg0
    populate_target_with_nodes seg1 inner

theorem childrenOf_mem_lt {ws : List Op} {p i : Nat}
    (h : i ∈ childrenOf ws p) : p < i ∧ i < ws.length := by
  rw [childrenOf, List.mem_filter, List.mem_range] at h
  obtain ⟨hi, hb⟩ := h
  have hp : parentOf ws i = some p := by
    have := eq_of_beq hb
    exact this
  exact ⟨parentOf_lt hp, hi⟩

/-- Emit a `(lead, element, trail)` triple into a node list, skipping
empty whitespace strings, as the callers of `build_wrapper_element` do. -/
def emitTriple (tr : Str × Elem × Str) : List Node :=
  (if tr.1 ≠ [] then [Node.txt tr.1] else []) ++ [Node.el tr.2.1] ++
    (if tr.2.2 ≠ [] then [Node.txt tr.2.2] else [])

/-- The walk of `render_span` (and of the top-level root loop): gaps are
plain segments, each child contributes its built triple, the cursor
jumps to each child's end. -/
def assembleGo (text : Str) (sops : List Op) (e : Nat) :
    Nat → List (Op × (Str × Elem × Str)) → List Node
  | cursor, [] =>
    if cursor < e then render_plain_segment text sops cursor e else []
  | cursor, (w, tr) :: rest =>
    (if cursor < w.offset then render_plain_segment text sops cursor w.offset
     else []) ++ emitTriple tr ++ assembleGo text sops e w.stop rest

/-- Child ordering used by `render_span` (`key=lambda i: offset`). -/
def byOffsetLe (ws : List Op) (a b : Nat) : Bool :=
  decide ((ws.getD a dummyOp).offset ≤ (ws.getD b dummyOp).offset)

/-- Render one wrapper of the forest: recursively render its children,
walk its own range, and build its element.  The recursion of
`render_span` descends the forest; child indices strictly increase, so
fuel `ws.length` always suffices (see `renderWrapperF_fuel`). -/
def renderWrapperF (text : Str) (sops : List Op) (ws : List Op) :
    Nat → Nat → Str × Elem × Str
  | 0, _ => ([], mkEl "tmp", [])
  | fuel + 1, idx =>
    let w := ws.getD idx dummyOp
    let kidsSorted := pySort (byOffsetLe ws) (childrenOf ws idx)
    let items := kidsSorted.map (fun c =>
      (ws.getD c dummyOp, renderWrapperF text sops ws fuel c))
    build_wrapper_element text w (assembleGo text sops w.stop w.offset items)

def renderWrapper (text : Str) (sops : List Op) (ws : List Op) (idx : Nat) :
    Str × Elem × Str :=
  renderWrapperF text sops ws ws.length idx

mutual

/-- `_wrap_choice_in_persname_in_element`, child-list walk. -/
def wrapKids (p : Op) : List Elem → List Elem × Bool
  | [] => ([], false)
  | c :: cs =>
    if c.tag = "persName" then
      let r := wrapKids p cs
      (c :: r.1, r.2)
    else if c.tag = "choice" then
      (((mkPers p).withKids [c]) :: cs, true)
    else
      let rc := wrapInElem p c
      if rc.2 then (rc.1 :: cs, true)
      else
        let r := wrapKids p cs
        (c :: r.1, r.2)

/-- `_wrap_choice_in_persname_in_element`: wrap the first `<choice>`
found depth-first inside `e` in a fresh `<persName>`, skipping existing
`persName` elements. -/
def wrapInElem (p : Op) : Elem → Elem × Bool
  | .mk t a x ks l =>
    if t = "persName" then (.mk t a x ks l, false)
    else
      let r := wrapKids p ks
      (.mk t a x r.1 l, r.2)

end

/-- `_wrap_choice_in_nodes_list`: same search over the top-level node
sequence; a wrapped top-level choice hands its tail to the new wrapper. -/
def wrapNodes (p : Op) : List Node → List Node × Bool
  | [] => ([], false)
  | n :: rest =>
    match n with
    | .txt s =>
      let r := wrapNodes p rest
      (Node.txt s :: r.1, r.2)
    | .el e =>
      if e.tag = "persName" then
        let r := wrapNodes p rest
        (Node.el e :: r.1, r.2)
      else if e.tag = "choice" then
        (Node.el (((mkPers p).withKids [e.withTail []]).withTail e.tail) :: rest,
         true)
      else
        let rc := wrapInElem p e
        if rc.2 then (Node.el rc.1 :: rest, true)
        else
          let r := wrapNodes p rest
          (Node.el e :: r.1, r.2)

/-- The inner loop of the repair pass: try every overlapping choice op
until one wrap succeeds, then stop for this person. -/
def unifyPerson (p : Op) : List Node → List Op → List Node
  | nds, [] => nds
  | nds, c :: cs =>
    if max p.offset c.offset < min p.stop c.stop then
      let r := wrapNodes p nds
      if r.2 then r.1 else unifyPerson p r.1 cs
    else unifyPerson p nds cs

/-- The post-pass entity unifier over all person ops. -/
def unify (nds : List Node) (ps cs : List Op) : List Node :=
  ps.foldl (fun acc p => unifyPerson p acc cs) nds

/-- `build_inline_nodes_for_line`: the complete line renderer. -/
def build_inline_nodes_for_line (text : Str) (ops : List Op) : List Node :=
  let ws := wrappersOf ops
  let sops := style_ops_of ops
  let roots := rootsOf ws
  let nodes :=
    if roots = [] then render_plain_segment text sops 0 text.length
    else
      let rootsSorted := pySort (byOffsetLe ws) roots
      assembleGo text sops text.length 0
        (rootsSorted.map (fun r =>
          (ws.getD r dummyOp, renderWrapper text sops ws r)))
  unify nodes (person_ops ops) (choice_ops ops)

/-- The renderer without the repair pass (used to show when the repair
pass is the identity). -/
def build_inline_nodes_no_unify (text : Str) (ops : List Op) : List Node :=
  let ws := wrappersOf ops
  let sops := style_ops_of ops
  let roots := rootsOf ws
  if roots = [] then render_plain_segment text sops 0 text.length
  else
    let rootsSorted := pySort (byOffsetLe ws) roots
    assembleGo text sops text.length 0
      (rootsSorted.map (fun r =>
        (ws.getD r dummyOp, renderWrapper text sops ws r)))

mutual

/-- Full text content of an element: all text and tails, in order. -/
def flatAll : Elem → Str
  | .mk _ _ x ks _ => x ++ flatAllKids ks

def flatAllKids : List Elem → Str
  | [] => []
  | c :: cs => flatAll c ++ c.tail ++ flatAllKids cs

end

/-- Full text content of a node sequence. -/
def flatAllNodes (ns : List Node) : Str :=
  ns.flatMap (fun n =>
    match n with
    | .txt s => s
    | .el e => flatAll e ++ e.tail)

def isGeoTag (t : String) : Bool :=
  t == "country" || t == "region" || t == "settlement" || t == "district"

mutual

/-- Witness projection of an element's text content: an alternation
pair contributes only its witness side (`abbr`/`sic` first part,
otherwise the second part), and the attribute-derived geographic child
elements of a `placeName` are skipped. -/
def flatW : Elem → Str
  | .mk t _ x [a, b] _ =>
    if t = "choice" then
      x ++ (if a.tag = "abbr" ∨ a.tag = "sic" then flatW a ++ a.tail
            else flatW b ++ b.tail)
    else x ++ flatWKids (t == "placeName") [a, b]
  | .mk t _ x ks _ => x ++ flatWKids (t == "placeName") ks

def flatWKids : Bool → List Elem → Str
  | _, [] => []
  | g, c :: cs =>
    (if g && isGeoTag c.tag then [] else flatW c ++ c.tail) ++ flatWKids g cs

end

/-- Witness projection of a node sequence's text content. -/
def flatWNodes (ns : List Node) : Str :=
  ns.flatMap (fun n =>
    match n with
    | .txt s => s
    | .el e => flatW e ++ e.tail)

theorem lenDropWhileLe {α : Type} (p : α → Bool) (l : List α) :
    (l.dropWhile p).length ≤ l.length :=
  (List.dropWhile_sublist p).length_le

theorem lenTailLe {α : Type} (l : List α) : l.tail.length ≤ l.length :=
  (List.tail_sublist l).length_le

/-- Scanner for the token regex of `parse_custom_ops`
(word, optional whitespace, brace-delimited body), reproducing
`re.finditer` left-to-right non-overlapping matching.  Every step
consumes at least one character, so fuel `s.length` suffices. -/
def findTokensF : Nat → Str → List (Str × Str)
  | 0, _ => []
  | _, [] => []
  | fuel + 1, c :: rest =>
    if isWordChar c then
      let afterRun := rest.dropWhile isWordChar
      let afterWS := afterRun.dropWhile isWS
      if afterWS.head? = some (Char.ofNat 123) then
        let bodyRest := afterWS.tail
        let body := bodyRest.takeWhile (fun ch => ch ≠ Char.ofNat 125)
        let afterBody := bodyRest.dropWhile (fun ch => ch ≠ Char.ofNat 125)
        if afterBody.isEmpty then []
        else
          (c :: rest.takeWhile isWordChar, body) ::
            findTokensF fuel afterBody.tail
      else if afterWS.isEmpty then [] else findTokensF fuel afterRun
    else findTokensF fuel rest

def findTokens (s : Str) : List (Str × Str) := findTokensF s.length s

/-- Scanner for the key/value regex of `parse_custom_ops`
(word, colon, value up to a mandatory semicolon). -/
def findKVsF : Nat → Str → List (Str × Str)
  | 0, _ => []
  | _, [] => []
  | fuel + 1, c :: rest =>
    if isWordChar c then
      let afterRun := rest.dropWhile isWordChar
      let afterWS := afterRun.dropWhile isWS
      if afterWS.head? = some ':' then
        let r3 := afterWS.tail
        let raw := r3.takeWhile (fun ch => ch ≠ ';')
        if raw = [] then findKVsF fuel afterRun
        else
          let afterVal := r3.dropWhile (fun ch => ch ≠ ';')
          if afterVal.isEmpty then []
          else
            (c :: rest.takeWhile isWordChar, pyStrip raw) ::
              findKVsF fuel afterVal.tail
      else if afterWS.isEmpty then [] else findKVsF fuel afterRun
    else findKVsF fuel rest

def findKVs (s : Str) : List (Str × Str) := findKVsF s.length s

/-- Python `dict` update: replace in place if present, else append. -/
def dictUpdate (d : List (String × String)) (k v : String) :
    List (String × String) :=
  if d.any (fun p => p.1 == k) then
    d.map (fun p => if p.1 == k then (k, v) else p)
  else d ++ [(k, v)]

/-- Build the key/value dict of one token body (first-key position,
last value). -/
def kvDict (ps : List (Str × Str)) : List (String × String) :=
  ps.foldl (fun d p => dictUpdate d (String.mk p.1) (String.mk p.2)) []

/-- Value of a nonempty all-digit string. -/
def digitsVal (s : Str) : Option Nat :=
  if s ≠ [] ∧ s.all Char.isDigit then
    some (s.foldl (fun n c => n * 10 + (c.toNat - 48)) 0)
  else none

/-- `parse_int` from the source: Python `int(...)` (whitespace-stripped,
optional sign, decimal digits), with a fallback default. -/
def parse_int (s : String) (d : Int) : Int :=
  match pyStrip (toStr s) with
  | '+' :: ds =>
    (match digitsVal ds with | some n => (n : Int) | none => d)
  | '-' :: ds =>
    (match digitsVal ds with | some n => -(n : Int) | none => d)
  | ds =>
    (match digitsVal ds with | some n => (n : Int) | none => d)

/-- An op as produced by the parser (offsets may be any integer, before
the data-model restriction to non-negative values). -/
structure POp where
  kind : String
  offset : Int
  length : Int
  stop : Int
  attrs : List (String × String)
deriving DecidableEq

/-- `op[k] = "true"/"false"` normalization when the key is present. -/
def normalizeBoolAttr (attrs : List (String × String)) (k : String) :
    List (String × String) :=
  if attrs.any (fun p => p.1 == k) then
    attrs.map (fun p =>
      if p.1 == k then (k, if parse_bool p.2 then "true" else "false") else p)
  else attrs

/-! Basic lemmas about the flatten functions. -/

@[simp] theorem flatAll_mk (t : String) (a : List (String × String)) (x : Str)
    (ks : List Elem) (l : Str) :
    flatAll (.mk t a x ks l) = x ++ flatAllKids ks := rfl

@[simp] theorem flatAllKids_nil : flatAllKids [] = [] := rfl

@[simp] theorem flatAllKids_cons (c : Elem) (cs : List Elem) :
    flatAllKids (c :: cs) = flatAll c ++ c.tail ++ flatAllKids cs := rfl

theorem flatAllKids_append (as bs : List Elem) :
    flatAllKids (as ++ bs) = flatAllKids as ++ flatAllKids bs := by
  induction as with
  | nil => simp
  | cons c cs ih => simp [ih]

@[simp] theorem flatWKids_nil (g : Bool) : flatWKids g [] = [] := rfl

@[simp] theorem flatWKids_cons (g : Bool) (c : Elem) (cs : List Elem) :
    flatWKids g (c :: cs) =
      (if g && isGeoTag c.tag then [] else flatW c ++ c.tail) ++
        flatWKids g cs := rfl

theorem flatWKids_false_cons (c : Elem) (cs : List Elem) :
    flatWKids false (c :: cs) = flatW c ++ c.tail ++ flatWKids false cs := by
  simp

theorem flatWKids_append (g : Bool) (as bs : List Elem) :
    flatWKids g (as ++ bs) = flatWKids g as ++ flatWKids g bs := by
  induction as with
  | nil => simp
  | cons c cs ih => simp [ih]

/-- `flatW` on a non-`choice` element. -/
theorem flatW_generic (t : String) (a : List (String × String)) (x : Str)
    (ks : List Elem) (l : Str) (ht : t ≠ "choice") :
    flatW (.mk t a x ks l) = x ++ flatWKids (t == "placeName") ks := by
  match ks with
  | [] => rfl
  | [k] => rfl
  | [k1, k2] => simp [flatW, ht]
  | k1 :: k2 :: k3 :: kr => rfl

/-- `flatW` on a two-child `choice`. -/
theorem flatW_choice (a : List (String × String)) (x : Str) (b c : Elem)
    (l : Str) :
    flatW (.mk "choice" a x [b, c] l) =
      x ++ (if b.tag = "abbr" ∨ b.tag = "sic" then flatW b ++ b.tail
            else flatW c ++ c.tail) := by
  simp [flatW]

theorem flatW_childless (e : Elem) (h : e.kids = []) : flatW e = e.text := by
  obtain ⟨t, a, x, ks, l⟩ := e
  simp only [Elem.kids] at h
  subst h
  match hh : t, hc : decide (t = "choice") with
  | _, _ => simp [flatW, Elem.text]

@[simp] theorem flatWNodes_nil : flatWNodes [] = [] := rfl

@[simp] theorem flatWNodes_cons_txt (s : Str) (ns : List Node) :
    flatWNodes (Node.txt s :: ns) = s ++ flatWNodes ns := rfl

@[simp] theorem flatWNodes_cons_el (e : Elem) (ns : List Node) :
    flatWNodes (Node.el e :: ns) = flatW e ++ e.tail ++ flatWNodes ns := by
  simp [flatWNodes, List.flatMap_cons]

theorem flatWNodes_append (as bs : List Node) :
    flatWNodes (as ++ bs) = flatWNodes as ++ flatWNodes bs := by
  simp [flatWNodes]

@[simp] theorem flatAllNodes_nil : flatAllNodes [] = [] := rfl

@[simp] theorem flatAllNodes_cons_txt (s : Str) (ns : List Node) :
    flatAllNodes (Node.txt s :: ns) = s ++ flatAllNodes ns := rfl

@[simp] theorem flatAllNodes_cons_el (e : Elem) (ns : List Node) :
    flatAllNodes (Node.el e :: ns) = flatAll e ++ e.tail ++ flatAllNodes ns := by
  simp [flatAllNodes, List.flatMap_cons]

theorem flatAllNodes_append (as bs : List Node) :
    flatAllNodes (as ++ bs) = flatAllNodes as ++ flatAllNodes bs := by
  simp [flatAllNodes]

@[simp] theorem Elem_tag_mk (t a x ks l) : (Elem.mk t a x ks l).tag = t := rfl

@[simp] theorem Elem_attrs_mk (t a x ks l) : (Elem.mk t a x ks l).attrs = a := rfl

@[simp] theorem Elem_text_mk (t a x ks l) : (Elem.mk t a x ks l).text = x := rfl

@[simp] theorem Elem_kids_mk (t a x ks l) : (Elem.mk t a x ks l).kids = ks := rfl

@[simp] theorem Elem_tail_mk (t a x ks l) : (Elem.mk t a x ks l).tail = l := rfl

@[simp] theorem withText_parts (e : Elem) (x : Str) :
    (e.withText x).tag = e.tag ∧ (e.withText x).attrs = e.attrs ∧
      (e.withText x).text = x ∧ (e.withText x).kids = e.kids ∧
      (e.withText x).tail = e.tail := by
  obtain ⟨t, a, y, ks, l⟩ := e; simp [Elem.withText]

@[simp] theorem withKids_parts (e : Elem) (ks : List Elem) :
    (e.withKids ks).tag = e.tag ∧ (e.withKids ks).attrs = e.attrs ∧
      (e.withKids ks).text = e.text ∧ (e.withKids ks).kids = ks ∧
      (e.withKids ks).tail = e.tail := by
  obtain ⟨t, a, y, ks0, l⟩ := e; simp [Elem.withKids]

@[simp] theorem withTail_parts (e : Elem) (l : Str) :
    (e.withTail l).tag = e.tag ∧ (e.withTail l).attrs = e.attrs ∧
      (e.withTail l).text = e.text ∧ (e.withTail l).kids = e.kids ∧
      (e.withTail l).tail = l := by
  obtain ⟨t, a, y, ks, l0⟩ := e; simp [Elem.withTail]

@[simp] theorem setAttr_parts (e : Elem) (k v : String) :
    (e.setAttr k v).tag = e.tag ∧ (e.setAttr k v).attrs = e.attrs ++ [(k, v)] ∧
      (e.setAttr k v).text = e.text ∧ (e.setAttr k v).kids = e.kids ∧
      (e.setAttr k v).tail = e.tail := by
  obtain ⟨t, a, y, ks, l⟩ := e; simp [Elem.setAttr]

/-- Uniform characterization of `flatW` (independent of attributes and
tail). -/
theorem flatW_eq (t : String) (a : List (String × String)) (x : Str)
    (ks : List Elem) (l : Str) :
    flatW (.mk t a x ks l) =
      x ++ (if t = "choice" then
              match ks with
              | [b, c] =>
                if b.tag = "abbr" ∨ b.tag = "sic" then flatW b ++ b.tail
                else flatW c ++ c.tail
              | _ => flatWKids false ks
            else flatWKids (t == "placeName") ks) := by
  by_cases ht : t = "choice"
  · subst ht
    match ks with
    | [] => simp [flatW]
    | [k] => simp [flatW]
    | [b, c] => simp [flatW]
    | k1 :: k2 :: k3 :: kr => simp [flatW]
  · rw [flatW_generic t a x ks l ht]
    simp [ht]

/-- `flatW` of an element whose tag is neither `choice` nor `placeName`. -/
theorem flatW_plain (e : Elem) (h1 : e.tag ≠ "choice")
    (h2 : e.tag ≠ "placeName") :
    flatW e = e.text ++ flatWKids false e.kids := by
  obtain ⟨t, a, x, ks, l⟩ := e
  simp only [Elem_tag_mk] at h1 h2
  rw [flatW_eq]
  have hb : (t == "placeName") = false := beq_eq_false_iff_ne.mpr h2
  simp [h1, hb]

theorem flatW_withTail (e : Elem) (l : Str) : flatW (e.withTail l) = flatW e := by
  obtain ⟨t, a, x, ks, l0⟩ := e
  simp only [Elem.withTail]
  rw [flatW_eq, flatW_eq]

/-- Core data (everything except the tail) of an element. -/
def sameCore (k k0 : Elem) : Prop :=
  k.tag = k0.tag ∧ k.attrs = k0.attrs ∧ k.text = k0.text ∧ k.kids = k0.kids

theorem sameCore_refl (k : Elem) : sameCore k k := ⟨rfl, rfl, rfl, rfl⟩

theorem appendTailLast_core (ks : List Elem) (s : Str) :
    ∀ k ∈ appendTailLast ks s, ∃ k0 ∈ ks, sameCore k k0 := by
  induction ks with
  | nil => simp [appendTailLast]
  | cons c cs ih =>
    intro k hk
    match cs with
    | [] =>
      simp only [appendTailLast, List.mem_singleton] at hk
      subst hk
      exact ⟨c, List.mem_singleton.mpr rfl, by simp [sameCore]⟩
    | c2 :: cs2 =>
      simp only [appendTailLast, List.mem_cons] at hk
      rcases hk with h | h
      · exact ⟨c, List.mem_cons_self _ _, h ▸ sameCore_refl c⟩
      · obtain ⟨k0, hk0, hc⟩ := ih k h
        exact ⟨k0, List.mem_cons_of_mem _ hk0, hc⟩

theorem append_text_tag (e : Elem) (s : Str) : (append_text e s).tag = e.tag := by
  unfold append_text
  split
  · rfl
  · split
    · exact (withText_parts _ _).1
    · exact (withKids_parts _ _).1

theorem append_text_kids_core (e : Elem) (s : Str) :
    ∀ k ∈ (append_text e s).kids, ∃ k0 ∈ e.kids, sameCore k k0 := by
  unfold append_text
  split
  · intro k hk; exact ⟨k, hk, sameCore_refl k⟩
  · split
    · intro k hk
      simp only [(withText_parts _ _).2.2.2.1] at hk
      exact ⟨k, hk, sameCore_refl k⟩
    · intro k hk
      simp only [(withKids_parts _ _).2.2.2.1] at hk
      exact appendTailLast_core _ _ k hk

theorem appendChild_kids (e : Elem) (c : Elem) :
    (appendChild e c).kids = e.kids ++ [c] := by
  simp [appendChild, (withKids_parts _ _).2.2.2.1]

theorem appendChild_tag (e : Elem) (c : Elem) :
    (appendChild e c).tag = e.tag := by
  simp [appendChild, (withKids_parts _ _).1]

/-- Property of every element child produced by `build_styled_nodes`:
a `hi` element, childless, never punctuation-only. -/
def hiOK (k : Elem) : Prop :=
  k.tag = "hi" ∧ k.kids = [] ∧ punctOnly k.text = false

theorem hiOK_of_sameCore {k k0 : Elem} (h : sameCore k k0) (h0 : hiOK k0) :
    hiOK k := by
  obtain ⟨h1, _, h3, h4⟩ := h
  refine ⟨h1.trans h0.1, ?_, ?_⟩
  · rw [h4]; exact h0.2.1
  · rw [h3]; exact h0.2.2

theorem sameCore_trans {k1 k2 k3 : Elem} (a : sameCore k1 k2)
    (b : sameCore k2 k3) : sameCore k1 k3 :=
  ⟨a.1.trans b.1, a.2.1.trans b.2.1, a.2.2.1.trans b.2.2.1, a.2.2.2.trans b.2.2.2⟩

theorem flatAllKids_appendTailLast (ks : List Elem) (s : Str) (h : ks ≠ []) :
    flatAllKids (appendTailLast ks s) = flatAllKids ks ++ s := by
  induction ks with
  | nil => exact absurd rfl h
  | cons c cs ih =>
    match cs with
    | [] =>
      obtain ⟨t, a, x, k0, l⟩ := c
      simp [appendTailLast, Elem.withTail]
    | c2 :: cs2 =>
      simp only [appendTailLast, flatAllKids_cons, ih (by simp)]
      simp

theorem flatW_tail_core {k k0 : Elem} (h : sameCore k k0) : flatW k = flatW k0 := by
  obtain ⟨t, a, x, ks, l⟩ := k
  obtain ⟨t0, a0, x0, ks0, l0⟩ := k0
  obtain ⟨h1, h2, h3, h4⟩ := h
  simp only [Elem_tag_mk, Elem_attrs_mk, Elem_text_mk, Elem_kids_mk] at h1 h2 h3 h4
  subst h1; subst h2; subst h3; subst h4
  rw [flatW_eq, flatW_eq]

theorem flatWKids_false_appendTailLast (ks : List Elem) (s : Str) (h : ks ≠ []) :
    flatWKids false (appendTailLast ks s) = flatWKids false ks ++ s := by
  induction ks with
  | nil => exact absurd rfl h
  | cons c cs ih =>
    match cs with
    | [] =>
      simp only [appendTailLast, flatWKids_false_cons, flatWKids_nil]
      rw [flatW_withTail]
      simp [(withTail_parts _ _).2.2.2.2]
    | c2 :: cs2 =>
      simp only [appendTailLast, flatWKids_false_cons, ih (by simp)]
      simp

theorem flatAll_append_text (e : Elem) (s : Str) :
    flatAll (append_text e s) = flatAll e ++ s := by
  obtain ⟨t, a, x, ks, l⟩ := e
  unfold append_text
  by_cases hs : s = []
  · simp [hs]
  · simp only [hs, if_false]
    by_cases hk : ks = []
    · subst hk; simp [Elem.withText]
    · simp only [Elem_kids_mk, hk, if_false, Elem.withKids, flatAll_mk]
      rw [flatAllKids_appendTailLast ks s hk]
      simp

theorem flatW_append_text (e : Elem) (s : Str) (h1 : e.tag ≠ "choice")
    (h2 : e.tag ≠ "placeName") :
    flatW (append_text e s) = flatW e ++ s := by
  have htag : (append_text e s).tag = e.tag := append_text_tag e s
  rw [flatW_plain _ (htag ▸ h1) (htag ▸ h2), flatW_plain e h1 h2]
  obtain ⟨t, a, x, ks, l⟩ := e
  unfold append_text
  by_cases hs : s = []
  · simp [hs]
  · simp only [hs, if_false]
    by_cases hk : ks = []
    · subst hk; simp [Elem.withText]
    · simp only [Elem_kids_mk, hk, if_false, Elem.withKids, Elem_text_mk]
      rw [flatWKids_false_appendTailLast ks s hk]
      simp

theorem flatAll_appendChild (e c : Elem) :
    flatAll (appendChild e c) = flatAll e ++ flatAll c ++ c.tail := by
  obtain ⟨t, a, x, ks, l⟩ := e
  simp [appendChild, Elem.withKids, flatAllKids_append]

theorem appendChild_text (e c : Elem) : (appendChild e c).text = e.text := by
  simp [appendChild, (withKids_parts _ _).2.2.1]

theorem flatW_appendChild (e c : Elem) (h1 : e.tag ≠ "choice")
    (h2 : e.tag ≠ "placeName") :
    flatW (appendChild e c) = flatW e ++ flatW c ++ c.tail := by
  have htag : (appendChild e c).tag = e.tag := appendChild_tag e c
  rw [flatW_plain _ (htag ▸ h1) (htag ▸ h2), flatW_plain e h1 h2]
  rw [appendChild_kids, appendChild_text, flatWKids_append]
  simp

/-! Tiling: the segments of `slice_text_nodes` reassemble to the text. -/

theorem slice_append (t : Str) {a b c : Nat} (h1 : a ≤ b) (h2 : b ≤ c) :
    slice t a b ++ slice t b c = slice t a c := by
  unfold slice
  have hc : c - a = (b - a) + (c - b) := by omega
  have hd : (List.drop a t).drop (b - a) = t.drop b := by
    rw [List.drop_drop]
    congr 1
    omega
  rw [hc, List.take_add, hd]

@[simp] theorem slice_self (t : Str) (a : Nat) : slice t a a = [] := by
  simp [slice]

theorem slice_zero_length (t : Str) : slice t 0 t.length = t := by
  simp [slice]

theorem sorted_head_le {a : Nat} {l : List Nat}
    (h : List.Pairwise (fun x y => x ≤ y) (a :: l)) :
    ∀ x ∈ a :: l, a ≤ x := by
  intro x hx
  rcases List.mem_cons.mp hx with rfl | hx
  · exact le_refl x
  · exact (List.pairwise_cons.mp h).1 x hx

theorem sorted_le_getLast {l : List Nat}
    (h : List.Pairwise (fun x y => x ≤ y) l) (hne : l ≠ []) :
    ∀ x ∈ l, x ≤ l.getLast hne := by
  induction l with
  | nil => exact absurd rfl hne
  | cons a as ih =>
    intro x hx
    match as with
    | [] =>
      simp at hx
      simp [hx, List.getLast]
    | b :: bs =>
      rw [List.getLast_cons (by simp)]
      rcases List.mem_cons.mp hx with rfl | hx
      · exact le_trans ((List.pairwise_cons.mp h).1 _ (List.getLast_mem _))
          (le_refl _)
      · exact ih (List.pairwise_cons.mp h).2 (by simp) x hx

theorem pySortNat_sorted (l : List Nat) :
    List.Pairwise (fun a b => a ≤ b)
      (pySort (fun a b => decide (a ≤ b)) l) := by
  haveI ht : IsTotal Nat (fun a b : Nat => decide (a ≤ b) = true) :=
    ⟨by intro a b; simp; omega⟩
  haveI htr : IsTrans Nat (fun a b : Nat => decide (a ≤ b) = true) :=
    ⟨by intro a b c; simp; omega⟩
  have hs := List.sorted_insertionSort (fun a b : Nat => decide (a ≤ b) = true) l
  exact hs.imp (by intro a b h; simpa using h)

theorem pySort_mem {α : Type} (le : α → α → Bool) (l : List α) (x : α) :
    x ∈ pySort le l ↔ x ∈ l :=
  List.mem_insertionSort _

/-- The tiling walk over consecutive cut pairs. -/
theorem zip_tile (t : Str) (ranges : List (Nat × Nat × String)) :
    ∀ (cs : List Nat) (c : Nat),
      List.Pairwise (fun a b => a ≤ b) (c :: cs) →
      ((((c :: cs).zip cs).filterMap (segFn t ranges)).map
        (fun s => s.2.2.1)).flatten =
        slice t c ((c :: cs).getLast (by simp)) := by
  intro cs
  induction cs with
  | nil =>
    intro c _
    simp [List.getLast]
  | cons b bs ih =>
    intro c hp
    have hcb : c ≤ b := (List.pairwise_cons.mp hp).1 b (by simp)
    have hp2 : List.Pairwise (fun a b => a ≤ b) (b :: bs) :=
      (List.pairwise_cons.mp hp).2
    have hblast : b ≤ (b :: bs).getLast (by simp) :=
      sorted_le_getLast hp2 (by simp) b (by simp)
    have hlast : (c :: b :: bs).getLast (by simp) =
        (b :: bs).getLast (by simp) := List.getLast_cons (by simp)
    rw [List.zip_cons_cons, List.filterMap_cons]
    rw [hlast]
    by_cases hcb : c = b
    · subst hcb
      have : segFn t ranges (c, c) = none := by simp [segFn]
      rw [this]
      rw [ih c hp2]
    · have : segFn t ranges (c, b) = some (c, b, slice t c b,
        (pySort strLe
          (((ranges.filter (fun r =>
              decide (r.1 ≤ c) && decide (b ≤ r.2.1) &&
                decide (r.1 < r.2.1))).map (fun r => r.2.2)).dedup))) := by
        simp [segFn, hcb]
      rw [this]
      simp only [List.map_cons, List.flatten_cons]
      rw [ih b hp2]
      exact slice_append t (by omega) (le_trans hblast (le_refl _))

/-- The segments of `slice_text_nodes` reassemble exactly to the text. -/
theorem slice_text_nodes_tiles (t : Str) (ranges : List (Nat × Nat × String)) :
    (((slice_text_nodes t ranges).map (fun s => s.2.2.1)).flatten) = t := by
  have hsort : List.Pairwise (fun a b => a ≤ b) (cutsOf t ranges) :=
    pySortNat_sorted _
  have h0 : (0 : Nat) ∈ cutsOf t ranges := by
    rw [cutsOf, pySort_mem, List.mem_dedup]
    exact List.mem_cons_self _ _
  have hlenm : t.length ∈ cutsOf t ranges := by
    rw [cutsOf, pySort_mem, List.mem_dedup]
    exact List.mem_cons_of_mem _ (List.mem_cons_self _ _)
  have hub : ∀ x ∈ cutsOf t ranges, x ≤ t.length := by
    intro x hx
    rw [cutsOf, pySort_mem, List.mem_dedup] at hx
    rcases List.mem_cons.mp hx with rfl | hx
    · omega
    rcases List.mem_cons.mp hx with rfl | hx
    · omega
    · rw [List.mem_flatMap] at hx
      obtain ⟨r, _, hr⟩ := hx
      simp only [List.mem_cons, List.mem_singleton] at hr
      rcases hr with rfl | rfl | h
      · omega
      · omega
      · exact absurd h (List.not_mem_nil x)
  rw [slice_text_nodes]
  match hcc : cutsOf t ranges with
  | [] => exact absurd (hcc ▸ h0) (List.not_mem_nil 0)
  | c :: cs =>
    rw [hcc] at hsort h0 hlenm hub
    have hc0 : c = 0 := by
      have := sorted_head_le hsort 0 h0
      omega
    have htail : (c :: cs).tail = cs := rfl
    rw [htail]
    rw [zip_tile t ranges cs c hsort]
    have hgl : (c :: cs).getLast (by simp) = t.length := by
      have h1 := sorted_le_getLast hsort (by simp) t.length hlenm
      have h2 := hub _ (List.getLast_mem (by simp))
      omega
    rw [hgl, hc0, slice_zero_length]

theorem styledStep_tag (par : Elem) (seg : Nat × Nat × Str × List String) :
    (styledStep par seg).tag = par.tag := by
  obtain ⟨s0, e0, sgt, labs⟩ := seg
  by_cases hl : labs = []
  · simp [styledStep, hl, append_text_tag]
  · by_cases hp : punctOnly sgt = true
    · simp [styledStep, hl, hp, append_text_tag]
    · simp [styledStep, hl, hp, appendChild_tag]

theorem styledStep_flatAll (par : Elem) (seg : Nat × Nat × Str × List String) :
    flatAll (styledStep par seg) = flatAll par ++ seg.2.2.1 := by
  obtain ⟨s0, e0, sgt, labs⟩ := seg
  by_cases hl : labs = []
  · simp [styledStep, hl, flatAll_append_text]
  · by_cases hp : punctOnly sgt = true
    · simp [styledStep, hl, hp, flatAll_append_text]
    · simp [styledStep, hl, hp, flatAll_appendChild]

theorem styledStep_flatW (par : Elem) (seg : Nat × Nat × Str × List String)
    (h1 : par.tag ≠ "choice") (h2 : par.tag ≠ "placeName") :
    flatW (styledStep par seg) = flatW par ++ seg.2.2.1 := by
  obtain ⟨s0, e0, sgt, labs⟩ := seg
  by_cases hl : labs = []
  · simp [styledStep, hl, flatW_append_text par sgt h1 h2]
  · by_cases hp : punctOnly sgt = true
    · simp [styledStep, hl, hp, flatW_append_text par sgt h1 h2]
    · rw [Bool.not_eq_true] at hp
      simp only [styledStep, hl, if_false, hp, Bool.false_eq_true, ite_false]
      rw [flatW_appendChild _ _ h1 h2,
        flatW_childless (Elem.mk "hi" [("rend", joinSpace labs)] sgt [] []) rfl]
      simp

theorem styledStep_kids (par : Elem) (seg : Nat × Nat × Str × List String) :
    ∀ k ∈ (styledStep par seg).kids,
      (∃ k0 ∈ par.kids, sameCore k k0) ∨ hiOK k := by
  obtain ⟨s0, e0, sgt, labs⟩ := seg
  by_cases hl : labs = []
  · intro k hk
    simp only [styledStep, hl, if_true] at hk
    exact Or.inl (append_text_kids_core par sgt k hk)
  · by_cases hp : punctOnly sgt = true
    · intro k hk
      simp only [styledStep, hl, if_false, hp, ite_true] at hk
      exact Or.inl (append_text_kids_core par sgt k hk)
    · intro k hk
      rw [Bool.not_eq_true] at hp
      simp only [styledStep, hl, if_false, hp, Bool.false_eq_true,
        ite_false] at hk
      rw [appendChild_kids, List.mem_append] at hk
      rcases hk with hk | hk
      · exact Or.inl ⟨k, hk, sameCore_refl k⟩
      · rw [List.mem_singleton] at hk
        subst hk
        exact Or.inr ⟨rfl, rfl, hp⟩

theorem styled_foldl_props (segs : List (Nat × Nat × Str × List String)) :
    ∀ (par : Elem),
      (segs.foldl styledStep par).tag = par.tag ∧
      flatAll (segs.foldl styledStep par) =
        flatAll par ++ (segs.map (fun s => s.2.2.1)).flatten ∧
      (∀ k ∈ (segs.foldl styledStep par).kids,
        (∃ k0 ∈ par.kids, sameCore k k0) ∨ hiOK k) := by
  induction segs with
  | nil =>
    intro par
    refine ⟨rfl, by simp, ?_⟩
    intro k hk
    exact Or.inl ⟨k, hk, sameCore_refl k⟩
  | cons seg rest ih =>
    intro par
    have h := ih (styledStep par seg)
    refine ⟨h.1.trans (styledStep_tag par seg), ?_, ?_⟩
    · rw [List.foldl_cons, h.2.1, styledStep_flatAll]
      simp
    · intro k hk
      rw [List.foldl_cons] at hk
      rcases h.2.2 k hk with ⟨k0, hk0, hc⟩ | hok
      · rcases styledStep_kids par seg k0 hk0 with ⟨k1, hk1, hc1⟩ | hok0
        · exact Or.inl ⟨k1, hk1, sameCore_trans hc hc1⟩
        · exact Or.inr (hiOK_of_sameCore hc hok0)
      · exact Or.inr hok

theorem styled_foldl_flatW (segs : List (Nat × Nat × Str × List String)) :
    ∀ (par : Elem), par.tag ≠ "choice" → par.tag ≠ "placeName" →
      flatW (segs.foldl styledStep par) =
        flatW par ++ (segs.map (fun s => s.2.2.1)).flatten := by
  induction segs with
  | nil => intro par _ _; simp
  | cons seg rest ih =>
    intro par h1 h2
    rw [List.foldl_cons]
    have ht := styledStep_tag par seg
    rw [ih (styledStep par seg) (ht ▸ h1) (ht ▸ h2)]
    rw [styledStep_flatW par seg h1 h2]
    simp

theorem build_styled_tag (parent : Elem) (t : Str) (sops : List Op) :
    (build_styled_nodes parent t sops).tag = parent.tag := by
  simp only [build_styled_nodes]
  split
  · exact append_text_tag parent t
  · exact (styled_foldl_props _ parent).1

theorem flatAll_build_styled (parent : Elem) (t : Str) (sops : List Op) :
    flatAll (build_styled_nodes parent t sops) = flatAll parent ++ t := by
  simp only [build_styled_nodes]
  split
  · exact flatAll_append_text parent t
  · rw [(styled_foldl_props _ parent).2.1, slice_text_nodes_tiles]

theorem flatW_build_styled (parent : Elem) (t : Str) (sops : List Op)
    (h1 : parent.tag ≠ "choice") (h2 : parent.tag ≠ "placeName") :
    flatW (build_styled_nodes parent t sops) = flatW parent ++ t := by
  simp only [build_styled_nodes]
  split
  · exact flatW_append_text parent t h1 h2
  · rw [styled_foldl_flatW _ parent h1 h2, slice_text_nodes_tiles]

theorem build_styled_kids (parent : Elem) (t : Str) (sops : List Op) :
    ∀ k ∈ (build_styled_nodes parent t sops).kids,
      (∃ k0 ∈ parent.kids, sameCore k k0) ∨ hiOK k := by
  simp only [build_styled_nodes]
  split
  · intro k hk
    exact Or.inl (append_text_kids_core parent t k hk)
  · exact (styled_foldl_props _ parent).2.2

/-- Every child produced by styling a fresh holder is a well-formed
`hi` element. -/
theorem build_styled_fresh_kids (tg : String) (t : Str) (sops : List Op) :
    ∀ k ∈ (build_styled_nodes (mkEl tg) t sops).kids, hiOK k := by
  intro k hk
  rcases build_styled_kids (mkEl tg) t sops k hk with ⟨k0, hk0, _⟩ | hok
  · simp [mkEl] at hk0
  · exact hok

theorem flatWNodes_nodesOfKids (ks : List Elem) :
    flatWNodes (nodesOfKids ks) = flatWKids false ks := by
  induction ks with
  | nil => rfl
  | cons c cs ih =>
    rw [nodesOfKids, List.flatMap_cons, ← nodesOfKids]
    by_cases hts : c.tail = []
    · simp [hts, flatWNodes_cons_el, flatW_withTail,
        (withTail_parts _ _).2.2.2.2, ih, flatWKids_false_cons]
    · simp [hts, flatWNodes_cons_el, flatWNodes_cons_txt, flatW_withTail,
        (withTail_parts _ _).2.2.2.2, ih, flatWKids_false_cons]

theorem render_plain_flatW (text : Str) (sops : List Op) (s e : Nat) :
    flatWNodes (render_plain_segment text sops s e) = slice text s e := by
  simp only [render_plain_segment]
  by_cases hseg : slice text s e = []
  · simp [hseg]
  · simp only [hseg, ite_false, if_false]
    have htag : (build_styled_nodes (mkEl "tmp") (slice text s e)
        (sops.filter (fun o =>
          decide (s ≤ o.offset) && decide (o.stop ≤ e)))).tag = "tmp" :=
      build_styled_tag _ _ _
    have hfw : flatW (build_styled_nodes (mkEl "tmp") (slice text s e)
        (sops.filter (fun o =>
          decide (s ≤ o.offset) && decide (o.stop ≤ e)))) = slice text s e := by
      rw [flatW_build_styled _ _ _ (by decide) (by decide)]
      rw [flatW_childless (mkEl "tmp") rfl]
      rfl
    have hplain := flatW_plain
      (build_styled_nodes (mkEl "tmp") (slice text s e)
        (sops.filter (fun o =>
          decide (s ≤ o.offset) && decide (o.stop ≤ e))))
      (by rw [htag]; decide) (by rw [htag]; decide)
    rw [flatWNodes_append, flatWNodes_nodesOfKids]
    rw [hplain] at hfw
    by_cases htx : (build_styled_nodes (mkEl "tmp") (slice text s e)
        (sops.filter (fun o =>
          decide (s ≤ o.offset) && decide (o.stop ≤ e)))).text = []
    · simp only [htx, ne_eq, not_true_eq_false, if_false, flatWNodes_nil,
        List.nil_append]
      simpa [htx] using hfw
    · simp only [htx, ne_eq, not_false_eq_true, if_true]
      simpa using hfw

theorem render_plain_tags (text : Str) (sops : List Op) (s e : Nat) :
    ∀ n ∈ render_plain_segment text sops s e, ∀ ev, n = Node.el ev →
      ev.tag = "hi" ∧ ev.kids = [] := by
  simp only [render_plain_segment]
  by_cases hseg : slice text s e = []
  · simp [hseg]
  · simp only [hseg, ite_false, if_false]
    intro n hn ev hev
    subst hev
    rw [List.mem_append] at hn
    rcases hn with hn | hn
    · split at hn
      · rw [List.mem_singleton] at hn
        exact absurd hn (by simp)
      · exact absurd hn (List.not_mem_nil _)
    · rw [nodesOfKids, List.mem_flatMap] at hn
      obtain ⟨ch, hch, hmem⟩ := hn
      have hok := build_styled_fresh_kids "tmp" _ _ ch hch
      rw [List.mem_cons] at hmem
      rcases hmem with hmem | hmem
      · have h1 : ev = ch.withTail [] := by injection hmem
        subst h1
        exact ⟨(withTail_parts _ _).1.trans hok.1,
          ((withTail_parts _ _).2.2.2.1).trans hok.2.1⟩
      · split at hmem
        · rw [List.mem_singleton] at hmem
          exact absurd hmem (by simp)
        · exact absurd hmem (List.not_mem_nil _)

/-- The attribute cleanup of one op: drop `offset`/`length`, normalize
the five style booleans only for `textStyle` tokens and `continued` for
every token. -/
def opAttrs (kind : String) (kv : List (String × String)) :
    List (String × String) :=
  let attrs0 := kv.filter (fun p => !(p.1 == "offset" || p.1 == "length"))
  let attrs1 :=
    if kind = "textStyle" then
      (["bold", "italic", "underline", "superscript", "subscript"]).foldl
        normalizeBoolAttr attrs0
    else attrs0
  normalizeBoolAttr attrs1 "continued"

/-- Build one op from one token of the `@custom` string. -/
def mkPOp (tk : Str × Str) : POp :=
  let kind := String.mk tk.1
  let kv := kvDict (findKVs tk.2)
  let off := parse_int ((kv.lookup "offset").getD "0") 0
  let len := parse_int ((kv.lookup "length").getD "0") 0
  ⟨kind, off, len, off + len, opAttrs kind kv⟩

/-- `parse_custom_ops`: tokenize the `@custom` string and build one op
per token. -/
def parse_custom_ops (custom : String) : List POp :=
  (findTokens (toStr custom)).map mkPOp

/-! Edge-whitespace machinery for `populate_target_with_nodes`. -/

def noLeadWS : Str → Bool
  | [] => true
  | c :: _ => !isWS c

def noTrailWS (s : Str) : Bool := noLeadWS s.reverse

theorem split_lead (s : Str) : s.takeWhile isWS ++ s.dropWhile isWS = s :=
  List.takeWhile_append_dropWhile isWS s

theorem split_trail (s : Str) : dropTrail s ++ takeTrail s = s := by
  rw [dropTrail, takeTrail, ← List.reverse_append,
    List.takeWhile_append_dropWhile, List.reverse_reverse]

theorem noLeadWS_dropWhile (s : Str) :
    noLeadWS (s.dropWhile isWS) = true := by
  induction s with
  | nil => rfl
  | cons c cs ih =>
    rw [List.dropWhile_cons]
    by_cases hc : isWS c = true
    · simp [hc, ih]
    · rw [Bool.not_eq_true] at hc
      simp [hc, noLeadWS]

theorem noTrailWS_dropTrail (s : Str) : noTrailWS (dropTrail s) = true := by
  rw [noTrailWS, dropTrail, List.reverse_reverse]
  exact noLeadWS_dropWhile _

theorem allWS_takeWhile (s : Str) : (s.takeWhile isWS).all isWS = true := by
  rw [List.all_eq_true]
  intro x hx
  exact List.mem_takeWhile_imp hx

theorem allWS_takeTrail (s : Str) : (takeTrail s).all isWS = true := by
  rw [takeTrail, List.all_reverse]
  exact allWS_takeWhile _

theorem append_text_attrs (e : Elem) (s : Str) :
    (append_text e s).attrs = e.attrs := by
  unfold append_text
  split
  · rfl
  · split
    · exact (withText_parts _ _).2.1
    · exact (withKids_parts _ _).2.1

theorem append_text_tail (e : Elem) (s : Str) :
    (append_text e s).tail = e.tail := by
  unfold append_text
  split
  · rfl
  · split
    · exact (withText_parts _ _).2.2.2.2
    · exact (withKids_parts _ _).2.2.2.2

theorem appendChild_attrs (e c : Elem) : (appendChild e c).attrs = e.attrs :=
  (withKids_parts _ _).2.1

theorem appendChild_tail (e c : Elem) : (appendChild e c).tail = e.tail :=
  (withKids_parts _ _).2.2.2.2

/-- One step of the `buildTmp` fold. -/
def tmpStep (t : Elem) (n : Node) : Elem :=
  match n with
  | .txt s => append_text t s
  | .el e => appendChild t e

theorem buildTmp_eq_foldl (nodes : List Node) :
    buildTmp nodes = nodes.foldl tmpStep (mkEl "tmp") := rfl

theorem tmpStep_tag (t : Elem) (n : Node) : (tmpStep t n).tag = t.tag := by
  cases n with
  | txt s => exact append_text_tag t s
  | el e => exact appendChild_tag t e

theorem tmpStep_attrs (t : Elem) (n : Node) : (tmpStep t n).attrs = t.attrs := by
  cases n with
  | txt s => exact append_text_attrs t s
  | el e => exact appendChild_attrs t e

theorem tmpStep_tail (t : Elem) (n : Node) : (tmpStep t n).tail = t.tail := by
  cases n with
  | txt s => exact append_text_tail t s
  | el e => exact appendChild_tail t e

theorem foldTmp_tag (nodes : List Node) : ∀ acc : Elem,
    ((nodes.foldl tmpStep acc).tag = acc.tag ∧
      (nodes.foldl tmpStep acc).attrs = acc.attrs ∧
      (nodes.foldl tmpStep acc).tail = acc.tail) := by
  induction nodes with
  | nil => intro acc; exact ⟨rfl, rfl, rfl⟩
  | cons n ns ih =>
    intro acc
    have h := ih (tmpStep acc n)
    exact ⟨h.1.trans (tmpStep_tag acc n), h.2.1.trans (tmpStep_attrs acc n),
      h.2.2.trans (tmpStep_tail acc n)⟩

theorem buildTmp_tag (nodes : List Node) : (buildTmp nodes).tag = "tmp" :=
  (foldTmp_tag nodes (mkEl "tmp")).1

theorem foldTmp_flatW (nodes : List Node) : ∀ acc : Elem,
    acc.tag ≠ "choice" → acc.tag ≠ "placeName" →
    flatW (nodes.foldl tmpStep acc) = flatW acc ++ flatWNodes nodes := by
  induction nodes with
  | nil => intro acc _ _; simp
  | cons n ns ih =>
    intro acc h1 h2
    rw [List.foldl_cons]
    have ht := tmpStep_tag acc n
    rw [ih (tmpStep acc n) (ht ▸ h1) (ht ▸ h2)]
    cases n with
    | txt s =>
      rw [show tmpStep acc (Node.txt s) = append_text acc s from rfl]
      rw [flatW_append_text acc s h1 h2, flatWNodes_cons_txt]
      simp
    | el e =>
      rw [show tmpStep acc (Node.el e) = appendChild acc e from rfl]
      rw [flatW_appendChild acc e h1 h2, flatWNodes_cons_el]
      simp

theorem foldTmp_flatAll (nodes : List Node) : ∀ acc : Elem,
    flatAll (nodes.foldl tmpStep acc) = flatAll acc ++ flatAllNodes nodes := by
  induction nodes with
  | nil => intro acc; simp
  | cons n ns ih =>
    intro acc
    rw [List.foldl_cons, ih (tmpStep acc n)]
    cases n with
    | txt s =>
      rw [show tmpStep acc (Node.txt s) = append_text acc s from rfl]
      rw [flatAll_append_text, flatAllNodes_cons_txt]
      simp
    | el e =>
      rw [show tmpStep acc (Node.el e) = appendChild acc e from rfl]
      rw [flatAll_appendChild, flatAllNodes_cons_el]
      simp

theorem buildTmp_flatW (nodes : List Node) :
    flatW (buildTmp nodes) = flatWNodes nodes := by
  rw [buildTmp_eq_foldl, foldTmp_flatW nodes (mkEl "tmp") (by decide) (by decide)]
  rw [flatW_childless (mkEl "tmp") rfl]
  rfl

theorem buildTmp_flatAll (nodes : List Node) :
    flatAll (buildTmp nodes) = flatAllNodes nodes := by
  rw [buildTmp_eq_foldl, foldTmp_flatAll nodes (mkEl "tmp")]
  rfl

theorem foldTmp_kids_core (nodes : List Node) : ∀ (acc : Elem),
    ∀ k ∈ (nodes.foldl tmpStep acc).kids,
      (∃ k0 ∈ acc.kids, sameCore k k0) ∨
        (∃ ev : Elem, Node.el ev ∈ nodes ∧ sameCore k ev) := by
  induction nodes with
  | nil =>
    intro acc k hk
    exact Or.inl ⟨k, hk, sameCore_refl k⟩
  | cons n ns ih =>
    intro acc k hk
    rw [List.foldl_cons] at hk
    rcases ih (tmpStep acc n) k hk with ⟨k0, hk0, hc⟩ | ⟨ev, hev, hc⟩
    · cases n with
      | txt s =>
        obtain ⟨k1, hk1, hc1⟩ := append_text_kids_core acc s k0 hk0
        exact Or.inl ⟨k1, hk1, sameCore_trans hc hc1⟩
      | el e =>
        rw [show tmpStep acc (Node.el e) = appendChild acc e from rfl,
          appendChild_kids, List.mem_append] at hk0
        rcases hk0 with hk0 | hk0
        · exact Or.inl ⟨k0, hk0, hc⟩
        · rw [List.mem_singleton] at hk0
          subst hk0
          exact Or.inr ⟨k0, List.mem_cons_self _ _, hc⟩
    · exact Or.inr ⟨ev, List.mem_cons_of_mem _ hev, hc⟩

theorem buildTmp_kids_core (nodes : List Node) :
    ∀ k ∈ (buildTmp nodes).kids,
      ∃ ev : Elem, Node.el ev ∈ nodes ∧ sameCore k ev := by
  intro k hk
  rcases foldTmp_kids_core nodes (mkEl "tmp") k hk with ⟨k0, hk0, _⟩ | h
  · exact absurd hk0 (List.not_mem_nil k0)
  · exact h

theorem stripLastTailWS_flatW (ks : List Elem) (h : ks ≠ []) :
    flatWKids false (stripLastTailWS ks) ++ takeTrail (lastTailOf ks) =
      flatWKids false ks := by
  induction ks with
  | nil => exact absurd rfl h
  | cons c cs ih =>
    match cs with
    | [] =>
      simp only [stripLastTailWS, lastTailOf, flatWKids_false_cons,
        flatWKids_nil, List.append_nil]
      rw [flatW_withTail, (withTail_parts _ _).2.2.2.2]
      rw [List.append_assoc, split_trail]
    | c2 :: cs2 =>
      simp only [stripLastTailWS, lastTailOf, flatWKids_false_cons]
      rw [List.append_assoc, ih (by simp)]
      simp

theorem stripLastTailWS_flatAll (ks : List Elem) (h : ks ≠ []) :
    flatAllKids (stripLastTailWS ks) ++ takeTrail (lastTailOf ks) =
      flatAllKids ks := by
  induction ks with
  | nil => exact absurd rfl h
  | cons c cs ih =>
    match cs with
    | [] =>
      obtain ⟨t, a, x, k0, l⟩ := c
      simp only [stripLastTailWS, lastTailOf, Elem.withTail, flatAllKids_cons,
        flatAllKids_nil, List.append_nil, Elem_tail_mk, flatAll_mk]
      rw [List.append_assoc, List.append_assoc, split_trail]
      simp
    | c2 :: cs2 =>
      simp only [stripLastTailWS, lastTailOf, flatAllKids_cons]
      rw [List.append_assoc, ih (by simp)]
      simp

theorem stripLastTailWS_core (ks : List Elem) :
    ∀ k ∈ stripLastTailWS ks, ∃ k0 ∈ ks, sameCore k k0 := by
  induction ks with
  | nil => simp [stripLastTailWS]
  | cons c cs ih =>
    intro k hk
    match cs with
    | [] =>
      simp only [stripLastTailWS, List.mem_singleton] at hk
      subst hk
      exact ⟨c, List.mem_singleton.mpr rfl, by simp [sameCore]⟩
    | c2 :: cs2 =>
      simp only [stripLastTailWS, List.mem_cons] at hk
      rcases hk with h | h
      · exact ⟨c, List.mem_cons_self _ _, h ▸ sameCore_refl c⟩
      · obtain ⟨k0, hk0, hc⟩ := ih k h
        exact ⟨k0, List.mem_cons_of_mem _ hk0, hc⟩

theorem lastTailOf_cons (c : Elem) (rest : List Elem) (h : rest ≠ []) :
    lastTailOf (c :: rest) = lastTailOf rest := by
  match rest with
  | [] => exact absurd rfl h
  | x :: xs => rfl

theorem stripLastTailWS_ne_nil {ks : List Elem} (h : ks ≠ []) :
    stripLastTailWS ks ≠ [] := by
  match ks with
  | [] => exact absurd rfl h
  | [c] => simp [stripLastTailWS]
  | c :: c2 :: cs2 => simp [stripLastTailWS]

theorem stripLastTailWS_lastTail (ks : List Elem) (h : ks ≠ []) :
    lastTailOf (stripLastTailWS ks) = dropTrail (lastTailOf ks) := by
  induction ks with
  | nil => exact absurd rfl h
  | cons c cs ih =>
    match cs with
    | [] =>
      simp [stripLastTailWS, lastTailOf, (withTail_parts _ _).2.2.2.2]
    | c2 :: cs2 =>
      simp only [stripLastTailWS]
      rw [lastTailOf_cons c _ (stripLastTailWS_ne_nil (by simp)),
        lastTailOf_cons c (c2 :: cs2) (by simp)]
      exact ih (by simp)

theorem flatWKids_nongeo (ks : List Elem)
    (h : ∀ k ∈ ks, isGeoTag k.tag = false) :
    flatWKids true ks = flatWKids false ks := by
  induction ks with
  | nil => rfl
  | cons c cs ih =>
    rw [flatWKids_cons, flatWKids_cons]
    rw [h c (List.mem_cons_self _ _)]
    rw [ih (fun k hk => h k (List.mem_cons_of_mem _ hk))]
    simp

theorem flatAll_eq (e : Elem) : flatAll e = e.text ++ flatAllKids e.kids := by
  obtain ⟨t, a, x, ks, l⟩ := e
  rfl

theorem flatW_plain_kids (e : Elem) (h1 : e.tag ≠ "choice")
    (h2 : e.tag = "placeName" → ∀ k ∈ e.kids, isGeoTag k.tag = false) :
    flatW e = e.text ++ flatWKids false e.kids := by
  by_cases hp : e.tag = "placeName"
  · obtain ⟨t, a, x, ks, l⟩ := e
    simp only [Elem_tag_mk] at hp h2
    subst hp
    rw [flatW_eq]
    simp only [Elem_text_mk, Elem_kids_mk]
    rw [if_neg (show ¬("placeName" : String) = "choice" by decide)]
    have hb : (("placeName" : String) == "placeName") = true := by decide
    rw [hb, flatWKids_nongeo ks (by simpa using h2)]
  · exact flatW_plain e h1 hp

theorem populate_parts (target : Elem) (nodes : List Node) :
    (populate_target_with_nodes target nodes).2.1.tag = target.tag ∧
    (populate_target_with_nodes target nodes).2.1.attrs = target.attrs ∧
    (populate_target_with_nodes target nodes).2.1.tail = target.tail := by
  rw [populate_target_with_nodes]
  by_cases hk : (buildTmp nodes).kids = []
  · simp only [hk, ite_true, if_true]
    exact ⟨(withText_parts _ _).1, (withText_parts _ _).2.1,
      (withText_parts _ _).2.2.2.2⟩
  · simp only [hk, ite_false, if_false]
    refine ⟨?_, ?_, ?_⟩
    · exact (withKids_parts _ _).1.trans (withText_parts _ _).1
    · exact (withKids_parts _ _).2.1.trans (withText_parts _ _).2.1
    · exact (withKids_parts _ _).2.2.2.2.trans (withText_parts _ _).2.2.2.2

theorem populate_kids_core (target : Elem) (nodes : List Node)
    (hkids : target.kids = []) :
    ∀ k ∈ (populate_target_with_nodes target nodes).2.1.kids,
      ∃ ev : Elem, Node.el ev ∈ nodes ∧ sameCore k ev := by
  rw [populate_target_with_nodes]
  by_cases hk : (buildTmp nodes).kids = []
  · simp only [hk, ite_true, if_true]
    intro k hkk
    rw [(withText_parts _ _).2.2.2.1, hkids] at hkk
    exact absurd hkk (List.not_mem_nil k)
  · simp only [hk, ite_false, if_false]
    intro k hkk
    rw [(withKids_parts _ _).2.2.2.1, hkids, List.nil_append] at hkk
    obtain ⟨k0, hk0, hc⟩ := stripLastTailWS_core _ k hkk
    obtain ⟨ev, hev, hc2⟩ := buildTmp_kids_core nodes k0 hk0
    exact ⟨ev, hev, sameCore_trans hc hc2⟩

theorem populate_flatW (target : Elem) (nodes : List Node)
    (htag : target.tag ≠ "choice")
    (hgeo : target.tag = "placeName" →
      ∀ ev : Elem, Node.el ev ∈ nodes → isGeoTag ev.tag = false)
    (htext : target.text = []) (hkids : target.kids = []) :
    (populate_target_with_nodes target nodes).1 ++
      flatW (populate_target_with_nodes target nodes).2.1 ++
      (populate_target_with_nodes target nodes).2.2 = flatWNodes nodes := by
  have hfw := buildTmp_flatW nodes
  have htmpTag : (buildTmp nodes).tag = "tmp" := buildTmp_tag nodes
  have htmpPlain : flatW (buildTmp nodes) =
      (buildTmp nodes).text ++ flatWKids false (buildTmp nodes).kids :=
    flatW_plain _ (by rw [htmpTag]; decide) (by rw [htmpTag]; decide)
  rw [htmpPlain] at hfw
  rw [populate_target_with_nodes]
  by_cases hk : (buildTmp nodes).kids = []
  · simp only [hk, ite_true, if_true]
    rw [flatW_childless _ (by rw [(withText_parts _ _).2.2.2.1]; exact hkids)]
    rw [(withText_parts _ _).2.2.1, htext, List.nil_append]
    rw [← hfw, hk, flatWKids_nil, List.append_nil]
    rw [List.append_assoc, split_trail, split_lead]
  · simp only [hk, ite_false, if_false]
    have hel := flatW_plain_kids
      ((target.withText
        (target.text ++ (buildTmp nodes).text.dropWhile isWS)).withKids
          (target.kids ++ stripLastTailWS (buildTmp nodes).kids))
      (by rw [(withKids_parts _ _).1, (withText_parts _ _).1]; exact htag)
      (by intro hpl k hkk
          rw [(withKids_parts _ _).2.2.2.1, hkids, List.nil_append] at hkk
          obtain ⟨k0, hk0, hc⟩ := stripLastTailWS_core _ k hkk
          obtain ⟨ev, hev, hc2⟩ := buildTmp_kids_core nodes k0 hk0
          have hg := hgeo (by
            rw [(withKids_parts _ _).1, (withText_parts _ _).1] at hpl
            exact hpl) ev hev
          rw [(sameCore_trans hc hc2).1]
          exact hg)
    rw [(withKids_parts _ _).2.2.1, (withText_parts _ _).2.2.1,
      (withKids_parts _ _).2.2.2.1] at hel
    rw [hel, htext, List.nil_append, hkids, List.nil_append, ← hfw]
    have e2 := stripLastTailWS_flatW (buildTmp nodes).kids hk
    conv_rhs => rw [← e2]
    generalize hT : (buildTmp nodes).text = T
    have e1 := split_lead T
    rw [← List.append_assoc, e1, List.append_assoc]

theorem populate_flatAll (target : Elem) (nodes : List Node)
    (htext : target.text = []) (hkids : target.kids = []) :
    (populate_target_with_nodes target nodes).1 ++
      flatAll (populate_target_with_nodes target nodes).2.1 ++
      (populate_target_with_nodes target nodes).2.2 = flatAllNodes nodes := by
  have hfa := buildTmp_flatAll nodes
  rw [flatAll_eq] at hfa
  rw [populate_target_with_nodes]
  by_cases hk : (buildTmp nodes).kids = []
  · simp only [hk, ite_true, if_true]
    rw [flatAll_eq, (withText_parts _ _).2.2.2.1, hkids, flatAllKids_nil,
      List.append_nil, (withText_parts _ _).2.2.1, htext, List.nil_append]
    rw [← hfa, hk, flatAllKids_nil, List.append_nil]
    rw [List.append_assoc, split_trail, split_lead]
  · simp only [hk, ite_false, if_false]
    rw [flatAll_eq, (withKids_parts _ _).2.2.2.1, (withKids_parts _ _).2.2.1,
      (withText_parts _ _).2.2.1, hkids, List.nil_append, htext,
      List.nil_append, ← hfa]
    have e2 := stripLastTailWS_flatAll (buildTmp nodes).kids hk
    conv_rhs => rw [← e2]
    generalize hT : (buildTmp nodes).text = T
    have e1 := split_lead T
    rw [← List.append_assoc, e1, List.append_assoc]

theorem noLeadWS_prefix {v w : Str} (hn : noLeadWS (v ++ w) = true) :
    noLeadWS v = true := by
  cases v with
  | nil => rfl
  | cons c cs => exact hn

theorem populate_edges (target : Elem) (nodes : List Node)
    (htext : target.text = []) (hkids : target.kids = []) :
    ((populate_target_with_nodes target nodes).1).all isWS = true ∧
    ((populate_target_with_nodes target nodes).2.2).all isWS = true ∧
    noLeadWS ((populate_target_with_nodes target nodes).2.1.text) = true ∧
    ((populate_target_with_nodes target nodes).2.1.kids = [] →
      noTrailWS ((populate_target_with_nodes target nodes).2.1.text) = true) ∧
    ((populate_target_with_nodes target nodes).2.1.kids ≠ [] →
      noTrailWS
        (lastTailOf ((populate_target_with_nodes target nodes).2.1.kids)) =
        true) := by
  rw [populate_target_with_nodes]
  by_cases hk : (buildTmp nodes).kids = []
  · simp only [hk, ite_true, if_true]
    refine ⟨allWS_takeWhile _, allWS_takeTrail _, ?_, ?_, ?_⟩
    · rw [(withText_parts _ _).2.2.1, htext, List.nil_append]
      have h1 := noLeadWS_dropWhile (buildTmp nodes).text
      rw [← split_trail ((buildTmp nodes).text.dropWhile isWS)] at h1
      exact noLeadWS_prefix h1
    · intro _
      rw [(withText_parts _ _).2.2.1, htext, List.nil_append]
      exact noTrailWS_dropTrail _
    · intro hne
      rw [(withText_parts _ _).2.2.2.1, hkids] at hne
      exact absurd rfl hne
  · simp only [hk, ite_false, if_false]
    refine ⟨allWS_takeWhile _, allWS_takeTrail _, ?_, ?_, ?_⟩
    · rw [(withKids_parts _ _).2.2.1, (withText_parts _ _).2.2.1, htext,
        List.nil_append]
      exact noLeadWS_dropWhile _
    · intro hknil
      rw [(withKids_parts _ _).2.2.2.1, hkids, List.nil_append] at hknil
      exact absurd hknil (stripLastTailWS_ne_nil hk)
    · intro _
      rw [(withKids_parts _ _).2.2.2.1, hkids, List.nil_append,
        stripLastTailWS_lastTail _ hk]
      exact noTrailWS_dropTrail _

/-! ## Claim theorems -/

/-- Claim C8, as stated, is false at the empty text: rendering with no
spans returns the empty node list, not a single (empty) text run. -/
theorem claim_C8_counterexample :
    build_inline_nodes_for_line (toStr "") [] = [] ∧
      (([] : List Node) ≠ [Node.txt (toStr "")]) := by
  constructor
  · decide
  · decide

theorem pyStrip_nil_of_all_ws {t : Str} (h : t.all isWS = true) :
    pyStrip t = [] := by
  have h1 : t.dropWhile isWS = [] :=
    List.dropWhile_eq_nil_iff.mpr (fun x hx => by
      exact (List.all_eq_true.mp h) x hx)
  rw [pyStrip, h1]
  rfl

/-- Claim C8 (amended): rendering a nonempty text with an empty span
list returns the single plain text run equal to the text; rendering the
empty text returns the empty node sequence. -/
theorem claim_C8_amended (t : Str) (h : t ≠ []) :
    build_inline_nodes_for_line t [] = [Node.txt t] := by
  have hplain : render_plain_segment t [] 0 t.length = [Node.txt t] := by
    simp only [render_plain_segment, slice_zero_length]
    simp only [h, ite_false, if_false]
    have hb : build_styled_nodes (Elem.mk "tmp" [] [] [] []) t [] =
        Elem.mk "tmp" [] t [] [] := by
      simp only [build_styled_nodes, ranges_of, List.filterMap_nil, ite_true,
        List.filter_nil, if_true]
      simp [append_text, h, Elem.withText]
    simp only [List.filter_nil, mkEl, hb, Elem_text_mk, Elem_kids_mk, h,
      ite_false, if_false, nodesOfKids, List.flatMap_nil, List.append_nil]
    simp [h]
  have hstep : build_inline_nodes_for_line t [] =
      unify (render_plain_segment t [] 0 t.length) [] [] := rfl
  rw [hstep, hplain]
  rfl

/-- Witness for the amended C8 at a concrete text. -/
theorem claim_C8_witness :
    toStr "ab" ≠ [] ∧
      build_inline_nodes_for_line (toStr "ab") [] = [Node.txt (toStr "ab")] :=
  ⟨by decide, claim_C8_amended (toStr "ab") (by decide)⟩

/-- Claim C4, as stated, is false: for `text="Marcus"` with the person
span `[0,6)` and abbrev span `[1,5)`, the abbrev interval is contained
in the person interval, so the containment builder already nests the
alternation inside the person wrapper and the repair pass changes
nothing — no new person node is created by the unifier. -/
theorem claim_C4_counterexample :
    build_inline_nodes_for_line (toStr "Marcus")
        [⟨"person", 0, 6, [("type", "human")]⟩,
         ⟨"abbrev", 1, 4, [("expansion", "Marc")]⟩] =
      build_inline_nodes_no_unify (toStr "Marcus")
        [⟨"person", 0, 6, [("type", "human")]⟩,
         ⟨"abbrev", 1, 4, [("expansion", "Marc")]⟩] ∧
    build_inline_nodes_no_unify (toStr "Marcus")
        [⟨"person", 0, 6, [("type", "human")]⟩,
         ⟨"abbrev", 1, 4, [("expansion", "Marc")]⟩] =
      [Node.el (.mk "persName" [("type", "human")] (toStr "M")
        [.mk "choice" [] []
          [.mk "abbr" [] (toStr "arcu") [] [],
           .mk "expan" [] (toStr "Marc") [] []]
          (toStr "s")] [])] := by
  constructor
  · decide
  · decide

/-- Claim C4 (amended): on this input the containment builder itself
nests the alternation pair inside the person wrapper (the abbrev
interval `[1,5)` is contained in `[0,6)`), the repair pass finds the
choice only inside an existing `persName` and so performs no repair,
and the final output is the person element containing `"M"`, the
alternation pair, and the tail `"s"`. -/
theorem claim_C4_amended :
    build_inline_nodes_for_line (toStr "Marcus")
        [⟨"person", 0, 6, [("type", "human")]⟩,
         ⟨"abbrev", 1, 4, [("expansion", "Marc")]⟩] =
      [Node.el (.mk "persName" [("type", "human")] (toStr "M")
        [.mk "choice" [] []
          [.mk "abbr" [] (toStr "arcu") [] [],
           .mk "expan" [] (toStr "Marc") [] []]
          (toStr "s")] [])] := by
  decide

/-- Claim C6: no styled (`hi`) element produced by `build_styled_nodes`
has punctuation-only (after whitespace trimming) content — such
segments are forced back to plain text — and styling always preserves
the text content exactly. -/
theorem claim_C6 (t : Str) (sops : List Op) :
    (∀ k ∈ (build_styled_nodes (mkEl "tmp") t sops).kids,
      k.tag = "hi" ∧ punctOnly k.text = false) ∧
    flatAll (build_styled_nodes (mkEl "tmp") t sops) = t := by
  constructor
  · intro k hk
    have h := build_styled_fresh_kids "tmp" t sops k hk
    exact ⟨h.1, h.2.2⟩
  · rw [flatAll_build_styled]
    rfl

/-- Witness for C6: a concrete styled run. -/
theorem claim_C6_witness :
    ((Elem.mk "hi" [("rend", "bold")] (toStr "ab") [] []).tag = "hi" ∧
      punctOnly (Elem.mk "hi" [("rend", "bold")] (toStr "ab") [] []).text =
        false) ∧
    flatAll (build_styled_nodes (mkEl "tmp") (toStr "ab")
      [⟨"textStyle", 0, 2, [("bold", "true")]⟩]) = toStr "ab" :=
  ⟨(claim_C6 (toStr "ab") [⟨"textStyle", 0, 2, [("bold", "true")]⟩]).1
      _ (by decide),
   (claim_C6 (toStr "ab") [⟨"textStyle", 0, 2, [("bold", "true")]⟩]).2⟩

theorem punctOnly_of_all_ws {t : Str} (hws : t.all isWS = true) :
    punctOnly t = false := by
  simp [punctOnly, pyStrip_nil_of_all_ws hws]

/-- Claim C10: a style span covering a whitespace-only (nonempty) text
still produces a styled `hi` element — the punctuation suppression does
not apply when the trimmed remainder is empty. -/
theorem claim_C10 (t : Str) (o : Op) (hk : o.kind = "textStyle")
    (ho : o.offset = 0) (hl : o.length = t.length) (hne : t ≠ [])
    (hws : t.all isWS = true) (hr : rend_of o ≠ []) :
    build_inline_nodes_for_line t [o] =
      [Node.el (.mk "hi" [("rend", joinSpace (rend_of o))] t [] [])] := by
  have hlen0 : 0 < t.length := List.length_pos.mpr hne
  have holen : 0 < o.length := by rw [hl]; exact hlen0
  have hstop : o.stop = t.length := by simp [Op.stop, ho, hl]
  have hw : wrappersOf [o] = [] := by
    simp [wrappersOf, person_ops, place_ops, ref_ops, unclear_ops, choice_ops,
      num_ops, other_ops, isKnownKind, isChoiceKind, hk, pySort,
      List.insertionSort]
  have hpers : person_ops [o] = [] := by simp [person_ops, hk]
  have hch : choice_ops [o] = [] := by simp [choice_ops, isChoiceKind, hk]
  have hso : style_ops_of [o] = [o] := by simp [style_ops_of, hk, holen]
  have hrg : ranges_of [o] = [(o.offset, o.stop, joinSpace (rend_of o))] := by
    simp [ranges_of, hr]
  have hcuts : cutsOf t [(o.offset, o.stop, joinSpace (rend_of o))] =
      [0, t.length] := by
    rw [cutsOf]
    have hpts : (0 :: t.length ::
        ([(o.offset, o.stop, joinSpace (rend_of o))].flatMap
          (fun r => [min t.length r.1, min t.length r.2.1]))) =
        [0, t.length, 0, t.length] := by
      simp [ho, hstop]
    rw [hpts]
    have hdd : List.dedup [0, t.length, 0, t.length] = [0, t.length] := by
      rw [List.dedup_cons_of_mem (by simp)]
      rw [List.dedup_cons_of_mem (by simp)]
      rw [List.dedup_cons_of_not_mem (by simp; omega)]
      simp
    rw [hdd]
    simp [pySort, List.insertionSort, List.orderedInsert]
  have hstn : slice_text_nodes t [(o.offset, o.stop, joinSpace (rend_of o))] =
      [(0, t.length, t, [joinSpace (rend_of o)])] := by
    rw [slice_text_nodes, hcuts]
    simp only [List.tail_cons, List.zip_cons_cons, List.zip_nil_right,
      List.filterMap_cons, List.filterMap_nil]
    have hfn : segFn t [(o.offset, o.stop, joinSpace (rend_of o))]
        (0, t.length) = some (0, t.length, t, [joinSpace (rend_of o)]) := by
      rw [segFn]
      have hne2 : ¬((0 : Nat) = t.length) := by omega
      simp only [hne2, if_false]
      rw [slice_zero_length]
      have hfil : ([(o.offset, o.stop, joinSpace (rend_of o))].filter
          (fun r => decide (r.1 ≤ 0) && decide (t.length ≤ r.2.1) &&
            decide (r.1 < r.2.1))) =
          [(o.offset, o.stop, joinSpace (rend_of o))] := by
        simp [ho, hstop, hlen0]
      rw [hfil]
      simp [pySort, List.insertionSort]
    rw [hfn]
  have hbsn : build_styled_nodes (mkEl "tmp") t [o] =
      Elem.mk "tmp" [] []
        [Elem.mk "hi" [("rend", joinSpace (rend_of o))] t [] []] [] := by
    rw [build_styled_nodes]
    simp only [hrg]
    have hrne : ¬([(o.offset, o.stop, joinSpace (rend_of o))] :
        List (Nat × Nat × String)) = [] := by simp
    simp only [hrne, if_false]
    rw [hstn]
    simp only [List.foldl_cons, List.foldl_nil]
    rw [styledStep]
    simp only [punctOnly_of_all_ws hws, Bool.false_eq_true, ite_false]
    have : ¬([joinSpace (rend_of o)] : List String) = [] := by simp
    simp only [this, if_false]
    rfl
  have hrp : render_plain_segment t [o] 0 t.length =
      [Node.el (.mk "hi" [("rend", joinSpace (rend_of o))] t [] [])] := by
    rw [render_plain_segment]
    simp only [slice_zero_length, hne, ite_false, if_false]
    have hfil2 : ([o].filter (fun x =>
        decide (0 ≤ x.offset) && decide (x.stop ≤ t.length))) = [o] := by
      simp [hstop]
    rw [hfil2, hbsn]
    simp [nodesOfKids, Elem.withTail]
  have hstep : build_inline_nodes_for_line t [o] =
      unify (render_plain_segment t (style_ops_of [o]) 0 t.length)
        (person_ops [o]) (choice_ops [o]) := by
    simp only [build_inline_nodes_for_line, hw]
    simp [rootsOf]
  rw [hstep, hso, hpers, hch, hrp]
  rfl

/-- Witness for C10 at a concrete whitespace-only text. -/
theorem claim_C10_witness :
    build_inline_nodes_for_line (toStr "  ")
        [⟨"textStyle", 0, 2, [("bold", "true")]⟩] =
      [Node.el (.mk "hi"
        [("rend", joinSpace (rend_of ⟨"textStyle", 0, 2, [("bold", "true")]⟩))]
        (toStr "  ") [] [])] :=
  claim_C10 (toStr "  ") ⟨"textStyle", 0, 2, [("bold", "true")]⟩ rfl rfl
    (by decide) (by decide) (by decide) (by decide)

/-- Claim C1, as stated, is false: two crossing (overlapping but not
nested) spans make the renderer re-emit the overlap, duplicating
characters — here `"abcde"` renders with text content `"abccde"`. -/
theorem claim_C1_counterexample :
    flatAllNodes (build_inline_nodes_for_line (toStr "abcde")
        [⟨"foo", 0, 3, []⟩, ⟨"foo", 2, 3, []⟩]) = toStr "abccde" ∧
      toStr "abccde" ≠ toStr "abcde" := by
  constructor
  · decide
  · decide

/-- Claim C5, as stated, is false: a wrapper whose inner content ends
with whitespace inside a styled element keeps that whitespace inside —
the produced `unclear` element (and the `hi` inside it) ends with
whitespace. -/
theorem claim_C5_counterexample :
    build_inline_nodes_for_line (toStr "a b ")
        [⟨"unclear", 0, 4, []⟩, ⟨"textStyle", 0, 4, [("bold", "true")]⟩] =
      [Node.el (.mk "unclear" [] []
        [.mk "hi" [("rend", "bold")] (toStr "a b ") [] []] [])] ∧
    noTrailWS (flatAll (.mk "unclear" [] []
        [.mk "hi" [("rend", "bold")] (toStr "a b ") [] []] [])) = false := by
  constructor
  · decide
  · decide

/-- Claim C5 (amended): the whitespace extraction strips exactly the
leading run of the wrapper's initial plain text and the trailing run of
its last child's tail (or of its text when childless), returning both
runs to be emitted as siblings; the spec's example renders as claimed;
but edge whitespace inside a styled child element (or a literal
alternation side) stays inside the wrapper. -/
theorem claim_C5_amended :
    (build_inline_nodes_for_line (toStr "ab cd ef") [⟨"unclear", 2, 4, []⟩] =
      [Node.txt (toStr "ab"), Node.txt (toStr " "),
       Node.el (.mk "unclear" [] (toStr "cd") [] []),
       Node.txt (toStr " "), Node.txt (toStr "ef")]) ∧
    (∀ (tg : String) (nodes : List Node),
      ((populate_target_with_nodes (mkEl tg) nodes).1).all isWS = true ∧
      ((populate_target_with_nodes (mkEl tg) nodes).2.2).all isWS = true ∧
      noLeadWS ((populate_target_with_nodes (mkEl tg) nodes).2.1.text) =
        true ∧
      ((populate_target_with_nodes (mkEl tg) nodes).2.1.kids = [] →
        noTrailWS ((populate_target_with_nodes (mkEl tg) nodes).2.1.text) =
          true) ∧
      ((populate_target_with_nodes (mkEl tg) nodes).2.1.kids ≠ [] →
        noTrailWS (lastTailOf
          ((populate_target_with_nodes (mkEl tg) nodes).2.1.kids)) = true) ∧
      (populate_target_with_nodes (mkEl tg) nodes).1 ++
          flatAll (populate_target_with_nodes (mkEl tg) nodes).2.1 ++
          (populate_target_with_nodes (mkEl tg) nodes).2.2 =
        flatAllNodes nodes) := by
  constructor
  · decide
  · intro tg nodes
    have he := populate_edges (mkEl tg) nodes rfl rfl
    have hc := populate_flatAll (mkEl tg) nodes rfl rfl
    exact ⟨he.1, he.2.1, he.2.2.1, he.2.2.2.1, he.2.2.2.2, hc⟩

/-- Witness for the amended C5 on the spec's own example content. -/
theorem claim_C5_witness :
    noTrailWS ((populate_target_with_nodes (mkEl "unclear")
        [Node.txt (toStr " cd ")]).2.1.text) = true ∧
    (populate_target_with_nodes (mkEl "unclear")
        [Node.txt (toStr " cd ")]).1 ++
      flatAll (populate_target_with_nodes (mkEl "unclear")
        [Node.txt (toStr " cd ")]).2.1 ++
      (populate_target_with_nodes (mkEl "unclear")
        [Node.txt (toStr " cd ")]).2.2 =
      flatAllNodes [Node.txt (toStr " cd ")] :=
  ⟨(claim_C5_amended.2 "unclear" [Node.txt (toStr " cd ")]).2.2.2.1
      (by decide),
   (claim_C5_amended.2 "unclear" [Node.txt (toStr " cd ")]).2.2.2.2.2⟩

/-- Claim C7, as stated, is false: when the `original` attribute is
absent the first part of the alternation pair falls back to the empty
string, not to the rendered inner content (which goes to the second
part). -/
theorem claim_C7_counterexample :
    build_inline_nodes_for_line (toStr "ab") [⟨"regularised", 0, 2, []⟩] =
      [Node.el (.mk "choice" [] []
        [.mk "orig" [] [] [] [], .mk "reg" [] (toStr "ab") [] []] [])] ∧
    ((Elem.mk "orig" [] [] [] []).text ≠ toStr "ab") := by
  constructor
  · decide
  · decide

/-- Claim C7 (amended): the first part of a regularised alternation is
the `original` (or `orig`) attribute and is empty — never the rendered
content — when both are absent; the second part prefers an explicit
`regularised`/`reg` attribute, in which case no plain witness text is
emitted inside it (only element children survive); without the explicit
attribute the second part receives the rendered inner content. -/
theorem claim_C7_amended (text : Str) (w : Op) (inner : List Node)
    (hk : w.kind = "regularised") :
    ∃ lead b trail, build_wrapper_element text w inner =
        (lead,
         mkChoiceEl [(mkEl "orig").withText
            (toStr (match pyOr (w.get "original") (w.get "orig") with
              | some s => s
              | none => w.getD "original" "")), b], trail) ∧
      b.tag = "reg" ∧
      (∀ r, pyOr (w.get "regularised") (w.get "reg") = some r →
        b.text = toStr r ∧
        ∀ k ∈ b.kids, ∃ ev : Elem, Node.el ev ∈ inner ∧ sameCore k ev) ∧
      (pyOr (w.get "regularised") (w.get "reg") = none →
        b = (populate_target_with_nodes (mkEl "reg") inner).2.1) := by
  rw [build_wrapper_element]
  rw [if_neg (by rw [hk]; decide), if_neg (by rw [hk]; decide),
    if_pos hk]
  match hreg : pyOr (w.get "regularised") (w.get "reg") with
  | some r =>
    by_cases hec : ((inner.filter (fun n =>
        match n with
        | .txt s => !(pyStrip s == pyStrip (slice text w.offset w.stop))
        | .el _ => true)).filter isElNode) = []
    · simp only [hec, ite_true, if_true]
      refine ⟨[], (mkEl "reg").withText (toStr r), [], rfl, ?_, ?_, ?_⟩
      · exact (withText_parts _ _).1
      · intro r2 hr2
        injection hr2 with hr2
        subst hr2
        refine ⟨(withText_parts _ _).2.2.1, ?_⟩
        intro k hkk
        rw [(withText_parts _ _).2.2.2.1] at hkk
        exact absurd hkk (List.not_mem_nil k)
      · intro hnone
        exact absurd hnone (by simp)
    · simp only [hec, ite_false, if_false]
      refine ⟨_, _, _, rfl, ?_, ?_, ?_⟩
      · exact (withKids_parts _ _).1.trans (withText_parts _ _).1
      · intro r2 hr2
        injection hr2 with hr2
        subst hr2
        refine ⟨(withKids_parts _ _).2.2.1.trans (withText_parts _ _).2.2.1, ?_⟩
        intro k hkk
        rw [(withKids_parts _ _).2.2.2.1] at hkk
        obtain ⟨ev, hev, hc⟩ := populate_kids_core (mkEl "tmp") _ rfl k hkk
        rw [List.mem_filter] at hev
        have hev2 := hev.1
        rw [List.mem_filter] at hev2
        exact ⟨ev, hev2.1, hc⟩
      · intro hnone
        exact absurd hnone (by simp)
  | none =>
    refine ⟨_, _, _, rfl, ?_, ?_, ?_⟩
    · exact (populate_parts (mkEl "reg") inner).1
    · intro r2 hr2
      exact absurd hr2 (by simp)
    · intro _
      rfl

/-- Witness for the amended C7 with an explicit regularised attribute. -/
theorem claim_C7_witness :
    ∃ lead b trail, build_wrapper_element (toStr "ab")
        ⟨"regularised", 0, 2, [("regularised", "xy")]⟩ [Node.txt (toStr "ab")] =
        (lead,
         mkChoiceEl [(mkEl "orig").withText
            (toStr (match pyOr
              ((⟨"regularised", 0, 2, [("regularised", "xy")]⟩ : Op).get
                "original")
              ((⟨"regularised", 0, 2, [("regularised", "xy")]⟩ : Op).get
                "orig") with
              | some s => s
              | none => (⟨"regularised", 0, 2, [("regularised", "xy")]⟩ :
                  Op).getD "original" "")), b], trail) ∧
      b.tag = "reg" ∧
      (∀ r, pyOr
          ((⟨"regularised", 0, 2, [("regularised", "xy")]⟩ : Op).get
            "regularised")
          ((⟨"regularised", 0, 2, [("regularised", "xy")]⟩ : Op).get "reg") =
          some r →
        b.text = toStr r ∧
        ∀ k ∈ b.kids, ∃ ev : Elem,
          Node.el ev ∈ [Node.txt (toStr "ab")] ∧ sameCore k ev) ∧
      (pyOr
          ((⟨"regularised", 0, 2, [("regularised", "xy")]⟩ : Op).get
            "regularised")
          ((⟨"regularised", 0, 2, [("regularised", "xy")]⟩ : Op).get "reg") =
          none →
        b = (populate_target_with_nodes (mkEl "reg")
          [Node.txt (toStr "ab")]).2.1) :=
  claim_C7_amended (toStr "ab") ⟨"regularised", 0, 2, [("regularised", "xy")]⟩
    [Node.txt (toStr "ab")] rfl

/-! Lemmas on attribute normalization, for the parser claim. -/

theorem lookup_key_any (attrs : List (String × String)) (k v : String)
    (h : attrs.lookup k = some v) : attrs.any (fun p => p.1 == k) = true := by
  induction attrs with
  | nil => simp [List.lookup] at h
  | cons a rest ih =>
    obtain ⟨a1, a2⟩ := a
    rw [List.lookup] at h
    by_cases hk : k = a1
    · subst hk
      simp
    · rw [show (k == a1) = false from beq_eq_false_iff_ne.mpr hk] at h
      rw [List.any_cons]
      rw [ih h]
      simp

theorem mapNorm_lookup_self (k : String) (g : String → String)
    (attrs : List (String × String)) (v : String)
    (h : (attrs.map (fun p =>
        if p.1 == k then (k, g p.2) else p)).lookup k = some v) :
    ∃ w, v = g w := by
  induction attrs with
  | nil => simp [List.lookup] at h
  | cons a rest ih =>
    obtain ⟨a1, a2⟩ := a
    rw [List.map_cons] at h
    by_cases ha : a1 = k
    · rw [if_pos (show ((a1, a2).1 == k) = true from beq_iff_eq.mpr ha)] at h
      rw [List.lookup] at h
      rw [beq_self_eq_true] at h
      exact ⟨a2, (Option.some_inj.mp h).symm⟩
    · rw [if_neg (show ¬((a1, a2).1 == k) = true by
        rw [beq_iff_eq]; exact ha)] at h
      rw [List.lookup] at h
      rw [show (k == a1) = false from
        beq_eq_false_iff_ne.mpr (Ne.symm ha)] at h
      exact ih h

theorem mapNorm_lookup_other (k k2 : String) (g : String → String)
    (hne : k ≠ k2) (attrs : List (String × String)) :
    (attrs.map (fun p =>
        if p.1 == k2 then (k2, g p.2) else p)).lookup k = attrs.lookup k := by
  induction attrs with
  | nil => rfl
  | cons a rest ih =>
    obtain ⟨a1, a2⟩ := a
    rw [List.map_cons]
    by_cases ha : a1 = k2
    · rw [if_pos (show ((a1, a2).1 == k2) = true from beq_iff_eq.mpr ha)]
      rw [List.lookup, List.lookup]
      rw [show (k == k2) = false from beq_eq_false_iff_ne.mpr hne]
      rw [show (k == a1) = false from
        beq_eq_false_iff_ne.mpr (fun he => hne (he.trans ha))]
      exact ih
    · rw [if_neg (show ¬((a1, a2).1 == k2) = true by
        rw [beq_iff_eq]; exact ha)]
      rw [List.lookup, List.lookup]
      cases hka : (k == a1) with
      | true => rfl
      | false => exact ih

theorem normalizeBoolAttr_lookup_self (attrs : List (String × String))
    (k v : String) (h : (normalizeBoolAttr attrs k).lookup k = some v) :
    v = "true" ∨ v = "false" := by
  rw [normalizeBoolAttr] at h
  by_cases hany : attrs.any (fun p => p.1 == k) = true
  · rw [if_pos hany] at h
    obtain ⟨w, hw⟩ := mapNorm_lookup_self k
      (fun w => if parse_bool w then "true" else "false") attrs v h
    by_cases hb : parse_bool w = true
    · left
      rw [hw, if_pos hb]
    · right
      rw [hw, if_neg hb]
  · rw [if_neg hany] at h
    exact absurd (lookup_key_any attrs k v h) hany

theorem normalizeBoolAttr_lookup_other (attrs : List (String × String))
    (k k2 : String) (hne : k ≠ k2) :
    (normalizeBoolAttr attrs k2).lookup k = attrs.lookup k := by
  rw [normalizeBoolAttr]
  by_cases hany : attrs.any (fun p => p.1 == k2) = true
  · rw [if_pos hany]
    exact mapNorm_lookup_other k k2
      (fun w => if parse_bool w then "true" else "false") hne attrs
  · rw [if_neg hany]

theorem foldl_norm_lookup_notmem (L : List String)
    (attrs : List (String × String)) (k : String) (hk : k ∉ L) :
    (L.foldl normalizeBoolAttr attrs).lookup k = attrs.lookup k := by
  induction L generalizing attrs with
  | nil => rfl
  | cons a rest ih =>
    rw [List.foldl_cons]
    have hka : k ≠ a := fun he => hk (he ▸ List.mem_cons_self a rest)
    have hkr : k ∉ rest := fun hm => hk (List.mem_cons_of_mem a hm)
    rw [ih _ hkr]
    exact normalizeBoolAttr_lookup_other attrs k a hka

theorem foldl_norm_lookup_mem (L : List String)
    (attrs : List (String × String)) (k : String) (hk : k ∈ L) (v : String)
    (h : (L.foldl normalizeBoolAttr attrs).lookup k = some v) :
    v = "true" ∨ v = "false" := by
  induction L generalizing attrs with
  | nil => exact absurd hk (List.not_mem_nil k)
  | cons a rest ih =>
    rw [List.foldl_cons] at h
    by_cases hkr : k ∈ rest
    · exact ih _ hkr h
    · have hka : k = a := by
        rcases List.mem_cons.mp hk with h1 | h2
        · exact h1
        · exact absurd h2 hkr
      subst hka
      rw [foldl_norm_lookup_notmem rest _ k hkr] at h
      exact normalizeBoolAttr_lookup_self _ k v h

theorem opAttrs_continued (kind : String) (kv : List (String × String))
    (v : String) (h : (opAttrs kind kv).lookup "continued" = some v) :
    v = "true" ∨ v = "false" := by
  simp only [opAttrs] at h
  exact normalizeBoolAttr_lookup_self _ _ v h

theorem opAttrs_style (kv : List (String × String)) (k : String)
    (hk : k ∈ (["bold", "italic", "underline", "superscript",
      "subscript"] : List String)) (v : String)
    (h : (opAttrs "textStyle" kv).lookup k = some v) :
    v = "true" ∨ v = "false" := by
  have hkc : k ≠ "continued" := by
    fin_cases hk <;> decide
  simp only [opAttrs] at h
  rw [if_pos trivial] at h
  rw [normalizeBoolAttr_lookup_other _ k "continued" hkc] at h
  exact foldl_norm_lookup_mem _ _ k hk v h

theorem mkPOp_attrs (tk : Str × Str) :
    (mkPOp tk).attrs = opAttrs (String.mk tk.1) (kvDict (findKVs tk.2)) := rfl

theorem mkPOp_kind (tk : Str × Str) : (mkPOp tk).kind = String.mk tk.1 := rfl

/-- Claim C9, as stated, is false: the five style flags are only
normalized on `textStyle` tokens; on a `person` token `bold:1` keeps the
raw spelling `"1"`. -/
theorem claim_C9_counterexample :
    parse_custom_ops "person \x7boffset:0;length:2;bold:1;\x7d" =
      [⟨"person", 0, 2, 2, [("bold", "1")]⟩] ∧
    ¬((("1" : String) = "true") ∨ (("1" : String) = "false")) := by
  constructor
  · decide
  · decide

/-- Claim C9 (amended): the parser normalizes `continued` to
`"true"`/`"false"` on every op, and the five style flags only on
`textStyle` ops; `parse_bool` accepts exactly the stripped,
case-insensitive spellings `1`, `true`, `yes`, `y` as true. -/
theorem claim_C9_amended (custom : String) (o : POp)
    (ho : o ∈ parse_custom_ops custom) :
    (∀ v, o.attrs.lookup "continued" = some v →
      v = "true" ∨ v = "false") ∧
    (o.kind = "textStyle" →
      ∀ k ∈ (["bold", "italic", "underline", "superscript",
          "subscript"] : List String),
        ∀ v, o.attrs.lookup k = some v → v = "true" ∨ v = "false") ∧
    (∀ v : String, parse_bool v = true ↔
      (pyStrip (toStr v)).map Char.toLower ∈
        ([toStr "1", toStr "true", toStr "yes", toStr "y"] : List Str)) := by
  rw [parse_custom_ops, List.mem_map] at ho
  obtain ⟨tk, htk, heq⟩ := ho
  subst heq
  refine ⟨?_, ?_, ?_⟩
  · intro v hv
    rw [mkPOp_attrs] at hv
    exact opAttrs_continued _ _ v hv
  · intro hkind k hk v hv
    rw [mkPOp_attrs] at hv
    rw [mkPOp_kind] at hkind
    rw [hkind] at hv
    exact opAttrs_style _ k hk v hv
  · intro v
    simp only [parse_bool, Bool.or_eq_true, decide_eq_true_eq,
      List.mem_cons, List.not_mem_nil, or_false]
    tauto

/-- Witness for the amended C9 on a concrete `textStyle` token with
spelling `YES`. -/
theorem claim_C9_witness :
    (∀ v, (⟨"textStyle", 0, 2, 2, [("bold", "true")]⟩ : POp).attrs.lookup
        "continued" = some v → v = "true" ∨ v = "false") ∧
    ((⟨"textStyle", 0, 2, 2, [("bold", "true")]⟩ : POp).kind = "textStyle" →
      ∀ k ∈ (["bold", "italic", "underline", "superscript",
          "subscript"] : List String),
        ∀ v, (⟨"textStyle", 0, 2, 2, [("bold", "true")]⟩ :
            POp).attrs.lookup k = some v → v = "true" ∨ v = "false") ∧
    (∀ v : String, parse_bool v = true ↔
      (pyStrip (toStr v)).map Char.toLower ∈
        ([toStr "1", toStr "true", toStr "yes", toStr "y"] : List Str)) :=
  claim_C9_amended "textStyle \x7boffset:0;length:2;bold:YES;\x7d"
    ⟨"textStyle", 0, 2, 2, [("bold", "true")]⟩ (by decide)

/-! Lemmas on the containment forest, for the descendant claim. -/

theorem containsB_trans {x y z : Op} (h1 : containsB x y = true)
    (h2 : containsB y z = true) : containsB x z = true := by
  rw [containsB, decide_eq_true_eq] at h1 h2 ⊢
  omega

theorem findDown_spec (ws : List Op) (tgt : Op) :
    ∀ (j j2 : Nat),
      ((List.range j).reverse).find?
        (fun k => containsB (ws.getD k dummyOp) tgt) = some j2 →
      j2 < j ∧ containsB (ws.getD j2 dummyOp) tgt = true ∧
      ∀ k, j2 < k → k < j →
        containsB (ws.getD k dummyOp) tgt = false := by
  intro j
  induction j with
  | zero =>
    intro j2 h
    simp [List.range_zero] at h
  | succ j ih =>
    intro j2 h
    rw [List.range_succ, List.reverse_append, List.reverse_singleton,
      List.singleton_append, List.find?_cons] at h
    cases hp : containsB (ws.getD j dummyOp) tgt with
    | true =>
      rw [hp] at h
      injection h with h
      subst h
      refine ⟨Nat.lt_succ_self j, hp, ?_⟩
      intro k hk1 hk2
      omega
    | false =>
      rw [hp] at h
      obtain ⟨h1, h2, h3⟩ := ih j2 h
      refine ⟨Nat.lt_succ_of_lt h1, h2, ?_⟩
      intro k hk1 hk2
      by_cases hkj : k = j
      · subst hkj
        exact hp
      · exact h3 k hk1 (by omega)

theorem findDown_exists (ws : List Op) (tgt : Op) (j a : Nat) (ha : a < j)
    (hp : containsB (ws.getD a dummyOp) tgt = true) :
    ∃ j2, ((List.range j).reverse).find?
      (fun k => containsB (ws.getD k dummyOp) tgt) = some j2 := by
  cases hf : ((List.range j).reverse).find?
      (fun k => containsB (ws.getD k dummyOp) tgt) with
  | some j2 => exact ⟨j2, rfl⟩
  | none =>
    exfalso
    have := List.find?_eq_none.mp hf a
      (by rw [List.mem_reverse, List.mem_range]; exact ha)
    rw [hp] at this
    exact this rfl

theorem descChain (ws : List Op) (b a : Nat)
    (hdom : ∀ k, k < ws.length →
      containsB (ws.getD k dummyOp) (ws.getD b dummyOp) = true →
      containsB (ws.getD a dummyOp) (ws.getD k dummyOp) = true) :
    ∀ fuel j, j ≤ fuel → a < j → j < ws.length →
      containsB (ws.getD a dummyOp) (ws.getD j dummyOp) = true →
      containsB (ws.getD j dummyOp) (ws.getD b dummyOp) = true →
      isDescF ws fuel j a = true := by
  intro fuel
  induction fuel with
  | zero =>
    intro j hj haj _ _ _
    omega
  | succ fuel ih =>
    intro j hj haj hjlen hcaj hcjb
    obtain ⟨j2, hfind⟩ :=
      findDown_exists ws (ws.getD j dummyOp) j a haj hcaj
    obtain ⟨hj2lt, hpred, hmax⟩ :=
      findDown_spec ws (ws.getD j dummyOp) j j2 hfind
    rw [isDescF]
    rw [show parentOf ws j = some j2 from hfind]
    by_cases hja : j2 = a
    · subst hja
      show (j2 == j2 || isDescF ws fuel j2 j2) = true
      simp
    · have haj2 : a < j2 := by
        rcases Nat.lt_or_ge j2 a with hlt | hge
        · exact absurd hcaj (by rw [hmax a hlt haj]; exact Bool.false_ne_true)
        · omega
      have hcj2b : containsB (ws.getD j2 dummyOp) (ws.getD b dummyOp) = true :=
        containsB_trans hpred hcjb
      have hcaj2 := hdom j2 (Nat.lt_trans hj2lt hjlen) hcj2b
      have hrec := ih j2 (by omega) haj2 (Nat.lt_trans hj2lt hjlen) hcaj2 hcj2b
      show (j2 == a || isDescF ws fuel j2 a) = true
      rw [hrec, Bool.or_true]

theorem wrapperLe_total (x y : Op) :
    wrapperLe x y = true ∨ wrapperLe y x = true := by
  rw [wrapperLe, wrapperLe, decide_eq_true_eq, decide_eq_true_eq]
  omega

theorem wrapperLe_trans {x y z : Op} (h1 : wrapperLe x y = true)
    (h2 : wrapperLe y z = true) : wrapperLe x z = true := by
  rw [wrapperLe, decide_eq_true_eq] at h1 h2 ⊢
  omega

theorem pySortWrapper_sorted (l : List Op) :
    List.Sorted (fun x y => wrapperLe x y = true) (pySort wrapperLe l) := by
  haveI : IsTotal Op (fun x y => wrapperLe x y = true) := ⟨wrapperLe_total⟩
  haveI : IsTrans Op (fun x y => wrapperLe x y = true) :=
    ⟨fun x y z => wrapperLe_trans⟩
  exact List.sorted_insertionSort _ l

theorem sorted_getD_le {l : List Op} {i j : Nat}
    (hs : List.Sorted (fun x y => wrapperLe x y = true) l)
    (hij : i < j) (hj : j < l.length) :
    wrapperLe (l.getD i dummyOp) (l.getD j dummyOp) = true := by
  have hi : i < l.length := Nat.lt_trans hij hj
  rw [List.getD_eq_getElem l dummyOp hi, List.getD_eq_getElem l dummyOp hj]
  exact List.Sorted.rel_get_of_lt hs hij

/-- Claim C3, as stated, is false: with person spans over intervals
with offsets and lengths (0,5), (1,6) and (2,2), the interval of
index 0 contains that of index 2 with no third interval strictly
between them, yet index 2 is a descendant of the crossing index 1 and
not of index 0. -/
theorem claim_C3_counterexample :
    wrappersOf [⟨"person", 0, 5, []⟩, ⟨"person", 1, 6, []⟩,
        ⟨"person", 2, 2, []⟩] =
      [⟨"person", 0, 5, []⟩, ⟨"person", 1, 6, []⟩, ⟨"person", 2, 2, []⟩] ∧
    containsB
      ((wrappersOf [⟨"person", 0, 5, []⟩, ⟨"person", 1, 6, []⟩,
        ⟨"person", 2, 2, []⟩]).getD 0 dummyOp)
      ((wrappersOf [⟨"person", 0, 5, []⟩, ⟨"person", 1, 6, []⟩,
        ⟨"person", 2, 2, []⟩]).getD 2 dummyOp) = true ∧
    (∀ k, k < 3 →
      ¬(containsB
          ((wrappersOf [⟨"person", 0, 5, []⟩, ⟨"person", 1, 6, []⟩,
            ⟨"person", 2, 2, []⟩]).getD 0 dummyOp)
          ((wrappersOf [⟨"person", 0, 5, []⟩, ⟨"person", 1, 6, []⟩,
            ⟨"person", 2, 2, []⟩]).getD k dummyOp) = true ∧
        containsB
          ((wrappersOf [⟨"person", 0, 5, []⟩, ⟨"person", 1, 6, []⟩,
            ⟨"person", 2, 2, []⟩]).getD k dummyOp)
          ((wrappersOf [⟨"person", 0, 5, []⟩, ⟨"person", 1, 6, []⟩,
            ⟨"person", 2, 2, []⟩]).getD 2 dummyOp) = true ∧
        ¬(k = 0) ∧ ¬(k = 2))) ∧
    isDesc (wrappersOf [⟨"person", 0, 5, []⟩, ⟨"person", 1, 6, []⟩,
      ⟨"person", 2, 2, []⟩]) 2 0 = false := by
  refine ⟨by decide, by decide, by decide, by decide⟩

/-- Claim C3 (amended): when the interval of index `a` PROPERLY contains
that of index `b` in the sorted wrappers list, and every interval
containing that of `b` is itself contained in the interval of `a` (so
no crossing interval sits above `b` outside `a`), `b` is a descendant
of `a` in the containment forest. -/
theorem claim_C3_amended (ops : List Op) (a b : Nat)
    (hb : b < (wrappersOf ops).length)
    (hcont : containsB ((wrappersOf ops).getD a dummyOp)
      ((wrappersOf ops).getD b dummyOp) = true)
    (hproper : ¬(((wrappersOf ops).getD a dummyOp).offset =
        ((wrappersOf ops).getD b dummyOp).offset ∧
      ((wrappersOf ops).getD a dummyOp).stop =
        ((wrappersOf ops).getD b dummyOp).stop))
    (hdom : ∀ k, k < (wrappersOf ops).length →
      containsB ((wrappersOf ops).getD k dummyOp)
        ((wrappersOf ops).getD b dummyOp) = true →
      containsB ((wrappersOf ops).getD a dummyOp)
        ((wrappersOf ops).getD k dummyOp) = true) :
    isDesc (wrappersOf ops) b a = true := by
  have hsorted : List.Sorted (fun x y => wrapperLe x y = true)
      (wrappersOf ops) := pySortWrapper_sorted _
  have hab : a < b := by
    rcases Nat.lt_trichotomy a b with h | h | h
    · exact h
    · exfalso
      apply hproper
      rw [h]
      exact ⟨rfl, rfl⟩
    · exfalso
      rcases Nat.lt_or_ge a (wrappersOf ops).length with h2 | h2
      · have hle := sorted_getD_le hsorted h h2
        rw [wrapperLe, decide_eq_true_eq] at hle
        rw [containsB, decide_eq_true_eq] at hcont
        apply hproper
        omega
      · apply hproper
        rw [List.getD_eq_default _ _ h2] at hcont ⊢
        rw [containsB, decide_eq_true_eq] at hcont
        have h0 : dummyOp.stop = 0 := rfl
        have h1 : dummyOp.offset = 0 := rfl
        have h2s : ((wrappersOf ops).getD b dummyOp).stop =
            ((wrappersOf ops).getD b dummyOp).offset +
              ((wrappersOf ops).getD b dummyOp).length := rfl
        omega
  rw [isDesc]
  apply descChain (wrappersOf ops) b a hdom b b (Nat.le_refl b) hab hb
  · exact hcont
  · rw [containsB, decide_eq_true_eq]
    omega

/-- Witness for the amended C3 on two nested person spans. -/
theorem claim_C3_witness :
    isDesc (wrappersOf [⟨"person", 0, 4, []⟩, ⟨"person", 1, 2, []⟩]) 1 0 =
      true :=
  claim_C3_amended [⟨"person", 0, 4, []⟩, ⟨"person", 1, 2, []⟩] 0 1
    (by decide) (by decide) (by decide) (by decide)

/-! Search predicates over rendered trees, for the tie-break claim. -/

mutual

/-- Whether tag `tg` occurs in the subtree rooted at an element. -/
def hasTagEl (tg : String) : Elem → Bool
  | .mk t _ _ ks _ => (t == tg) || hasTagKids tg ks

def hasTagKids (tg : String) : List Elem → Bool
  | [] => false
  | c :: cs => hasTagEl tg c || hasTagKids tg cs

end

mutual

/-- No `persName` occurs below any `choice` element in the subtree. -/
def noPersInChoice : Elem → Bool
  | .mk t _ _ ks _ =>
    (if t == "choice" then !(hasTagKids "persName" ks) else true) &&
      noPersInChoiceKids ks

def noPersInChoiceKids : List Elem → Bool
  | [] => true
  | c :: cs => noPersInChoice c && noPersInChoiceKids cs

end

def nodeNoPersInChoice : Node → Bool
  | .txt _ => true
  | .el e => noPersInChoice e

theorem hasTagEl_parts (tg : String) (e : Elem) :
    hasTagEl tg e = ((e.tag == tg) || hasTagKids tg e.kids) := by
  obtain ⟨t, a, x, ks, l⟩ := e
  rfl

theorem noPersInChoice_parts (e : Elem) :
    noPersInChoice e =
      ((if e.tag == "choice" then !(hasTagKids "persName" e.kids)
        else true) && noPersInChoiceKids e.kids) := by
  obtain ⟨t, a, x, ks, l⟩ := e
  rfl

theorem noPersInChoiceKids_iff (ks : List Elem) :
    noPersInChoiceKids ks = true ↔ ∀ k ∈ ks, noPersInChoice k = true := by
  induction ks with
  | nil => simp [noPersInChoiceKids]
  | cons c cs ih =>
    rw [noPersInChoiceKids, Bool.and_eq_true, ih, List.forall_mem_cons]

/-- With no style ops a plain segment is a single text run (or nothing
when the slice is empty). -/
theorem render_plain_nostyle (text : Str) (s e : Nat) :
    render_plain_segment text [] s e =
      if slice text s e = [] then [] else [Node.txt (slice text s e)] := by
  simp only [render_plain_segment]
  by_cases h : slice text s e = []
  · simp [h]
  · rw [if_neg h, if_neg h]
    rw [List.filter_nil]
    simp only [build_styled_nodes]
    rw [show ranges_of [] = [] from rfl, if_pos rfl]
    rw [append_text, if_neg h]
    rw [show (mkEl "tmp").kids = [] from rfl, if_pos rfl]
    simp [Elem.withText, mkEl, nodesOfKids, h]

theorem setIfPresent_parts (e : Elem) (w : Op) (k : String) :
    (setIfPresent e w k).tag = e.tag ∧ (setIfPresent e w k).text = e.text ∧
      (setIfPresent e w k).kids = e.kids ∧
      (setIfPresent e w k).tail = e.tail := by
  rw [setIfPresent]
  split
  · exact ⟨(setAttr_parts _ _ _).1, (setAttr_parts _ _ _).2.2.1,
      (setAttr_parts _ _ _).2.2.2.1, (setAttr_parts _ _ _).2.2.2.2⟩
  · exact ⟨rfl, rfl, rfl, rfl⟩

/-- The shape invariant of a fresh person wrapper. -/
def persShape (e : Elem) : Prop :=
  e.tag = "persName" ∧ e.text = [] ∧ e.kids = [] ∧ e.tail = []

theorem persShape_setAttr (e : Elem) (k v : String) (he : persShape e) :
    persShape (e.setAttr k v) := by
  rw [persShape, (setAttr_parts e k v).1, (setAttr_parts e k v).2.2.1,
    (setAttr_parts e k v).2.2.2.1, (setAttr_parts e k v).2.2.2.2]
  exact he

theorem persShape_setIfPresent (e : Elem) (w : Op) (k : String)
    (he : persShape e) : persShape (setIfPresent e w k) := by
  have h := setIfPresent_parts e w k
  rw [persShape, h.1, h.2.1, h.2.2.1, h.2.2.2]
  exact he

theorem mkPers_parts (p : Op) : persShape (mkPers p) := by
  have h0 : persShape (mkEl "persName") := ⟨rfl, rfl, rfl, rfl⟩
  have h1 := persShape_setIfPresent (mkEl "persName") p "type" h0
  have h2 : ∀ r : Option String, persShape
      ((match r with
        | some wid => (setIfPresent (mkEl "persName") p "type").setAttr
            "ref" ("https://www.wikidata.org/wiki/" ++ wid)
        | none => setIfPresent (mkEl "persName") p "type") : Elem) := by
    intro r
    cases r with
    | some wid => exact persShape_setAttr _ _ _ h1
    | none => exact h1
  have h3 := persShape_setIfPresent _ p "firstname" (h2 (p.get "wikiData"))
  simp only [mkPers]
  split
  · exact persShape_setAttr _ _ _ h3
  · exact h3

theorem withTail_withTail (e : Elem) (la lb : Str) :
    (e.withTail la).withTail lb = e.withTail lb := by
  obtain ⟨t, a, x, ks, l⟩ := e
  rfl

/-- The temporary holder built from one emitted triple. -/
theorem emit_buildTmp (ld : Str) (ch : Elem) (tr : Str)
    (htail : ch.tail = []) :
    buildTmp (emitTriple (ld, ch, tr)) =
      Elem.mk "tmp" [] ld [ch.withTail tr] [] := by
  obtain ⟨t, a, x, ks, l⟩ := ch
  rw [Elem_tail_mk] at htail
  subst htail
  by_cases hld : ld = [] <;> by_cases htr : tr = [] <;>
    simp [emitTriple, buildTmp, append_text, appendChild, appendTailLast,
      Elem.withText, Elem.withKids, Elem.withTail, mkEl, hld, htr]

/-- Populating a target with one emitted triple. -/
theorem populate_emit (target : Elem) (ld : Str) (ch : Elem) (tr : Str)
    (htext : target.text = []) (hkids : target.kids = [])
    (htail : ch.tail = []) :
    populate_target_with_nodes target (emitTriple (ld, ch, tr)) =
      (ld.takeWhile isWS,
       (target.withText (ld.dropWhile isWS)).withKids
         [ch.withTail (dropTrail tr)],
       takeTrail tr) := by
  simp only [populate_target_with_nodes]
  rw [emit_buildTmp ld ch tr htail]
  simp only [Elem_text_mk, Elem_kids_mk]
  rw [if_neg (by simp)]
  rw [stripLastTailWS]
  rw [lastTailOf]
  rw [(withTail_parts ch tr).2.2.2.2]
  rw [withTail_withTail]
  rw [htext, hkids]
  simp

/-- Populating a target with at most one plain text node. -/
theorem populate_txt (target : Elem) (s : Str)
    (htext : target.text = []) (hkids : target.kids = []) :
    populate_target_with_nodes target
        (if s = [] then [] else [Node.txt s]) =
      (s.takeWhile isWS, target.withText (dropTrail (s.dropWhile isWS)),
       takeTrail (s.dropWhile isWS)) := by
  by_cases hs : s = []
  · subst hs
    rw [if_pos rfl]
    simp [populate_target_with_nodes, buildTmp, mkEl, htext, dropTrail,
      takeTrail]
  · rw [if_neg hs]
    simp [populate_target_with_nodes, buildTmp, append_text, Elem.withText,
      mkEl, hs, htext]

/-- The abbrev wrapper over a plain unstyled inner segment. -/
theorem abbrev_triple (text : Str) (o l : Nat)
    (aa : List (String × String)) :
    build_wrapper_element text ⟨"abbrev", o, l, aa⟩
        (render_plain_segment text [] o (o + l)) =
      ((slice text o (o + l)).takeWhile isWS,
       mkChoiceEl [(mkEl "abbr").withText
           (dropTrail ((slice text o (o + l)).dropWhile isWS)),
         (mkEl "expan").withText
           (toStr ((Op.mk "abbrev" o l aa).getD "expansion" ""))],
       takeTrail ((slice text o (o + l)).dropWhile isWS)) := by
  rw [render_plain_nostyle]
  simp only [build_wrapper_element]
  rw [if_pos trivial]
  rw [populate_txt (mkEl "abbr") (slice text o (o + l)) rfl rfl]

/-- The unifier search skips a list whose only elements are persName
wrappers. -/
theorem wrapNodes_skip (p : Op) (l : List Node)
    (h : ∀ e : Elem, Node.el e ∈ l → e.tag = "persName") :
    wrapNodes p l = (l, false) := by
  induction l with
  | nil => rfl
  | cons n rest ih =>
    have hrest : ∀ e : Elem, Node.el e ∈ rest → e.tag = "persName" :=
      fun e he => h e (List.mem_cons_of_mem n he)
    cases n with
    | txt s =>
      rw [wrapNodes, ih hrest]
    | el e =>
      have htag := h e (List.mem_cons_self _ _)
      rw [wrapNodes, if_pos htag, ih hrest]

theorem unifyPerson_skip (p : Op) (nds : List Node) (cs : List Op)
    (h : ∀ e : Elem, Node.el e ∈ nds → e.tag = "persName") :
    unifyPerson p nds cs = nds := by
  induction cs with
  | nil => rfl
  | cons c cs2 ih =>
    rw [unifyPerson]
    split
    · rw [wrapNodes_skip p nds h]
      simp only []
      rw [if_neg (by simp)]
      exact ih
    · exact ih

theorem slice_of_le {s e : Nat} (t : Str) (h : e ≤ s) :
    slice t s e = [] := by
  rw [slice, show e - s = 0 from by omega, List.take_zero]

theorem slice_of_ge {s : Nat} (t : Str) (e : Nat) (h : t.length ≤ s) :
    slice t s e = [] := by
  rw [slice, List.drop_eq_nil_of_le h, List.take_nil]

theorem c2_wrapperLe_PA (o l : Nat) (ap aa : List (String × String)) :
    wrapperLe (Op.mk "person" o l ap) (Op.mk "abbrev" o l aa) = true := by
  rw [wrapperLe, decide_eq_true_eq]
  right
  refine ⟨rfl, Or.inr ⟨rfl, ?_⟩⟩
  rw [show op_priority "person" = 0 from by decide,
    show op_priority "abbrev" = 1 from by decide]
  exact Nat.zero_le 1

theorem c2_wrapperLe_AP (o l : Nat) (ap aa : List (String × String)) :
    wrapperLe (Op.mk "abbrev" o l aa) (Op.mk "person" o l ap) = false := by
  rw [wrapperLe, decide_eq_false_iff_not]
  intro h
  rw [show op_priority "person" = 0 from by decide,
    show op_priority "abbrev" = 1 from by decide] at h
  have e1 : (Op.mk "abbrev" o l aa).offset = o := rfl
  have e2 : (Op.mk "person" o l ap).offset = o := rfl
  have e3 : (Op.mk "abbrev" o l aa).stop = o + l := rfl
  have e4 : (Op.mk "person" o l ap).stop = o + l := rfl
  omega

theorem c2_ws (o l : Nat) (hl : 0 < l) (ap aa : List (String × String)) :
    wrappersOf [Op.mk "person" o l ap, Op.mk "abbrev" o l aa] =
      [Op.mk "person" o l ap, Op.mk "abbrev" o l aa] ∧
    wrappersOf [Op.mk "abbrev" o l aa, Op.mk "person" o l ap] =
      [Op.mk "person" o l ap, Op.mk "abbrev" o l aa] := by
  have hPA := c2_wrapperLe_PA o l ap aa
  have hAP := c2_wrapperLe_AP o l ap aa
  constructor <;>
    simp [wrappersOf, person_ops, place_ops, ref_ops, unclear_ops,
      choice_ops, num_ops, other_ops, isChoiceKind, isKnownKind, hl,
      pySort, List.insertionSort, List.orderedInsert, hPA, hAP]

theorem c2_contains (o l : Nat) (ap aa : List (String × String)) :
    containsB (Op.mk "person" o l ap) (Op.mk "abbrev" o l aa) = true := by
  rw [containsB, decide_eq_true_eq]
  exact ⟨Nat.le_refl o, Nat.le_refl (o + l)⟩

theorem c2_forest (o l : Nat) (ap aa : List (String × String)) :
    parentOf [Op.mk "person" o l ap, Op.mk "abbrev" o l aa] 1 = some 0 ∧
    parentOf [Op.mk "person" o l ap, Op.mk "abbrev" o l aa] 0 = none ∧
    rootsOf [Op.mk "person" o l ap, Op.mk "abbrev" o l aa] = [0] ∧
    childrenOf [Op.mk "person" o l ap, Op.mk "abbrev" o l aa] 0 = [1] ∧
    childrenOf [Op.mk "person" o l ap, Op.mk "abbrev" o l aa] 1 = [] := by
  have hc := c2_contains o l ap aa
  have h1 : parentOf [Op.mk "person" o l ap, Op.mk "abbrev" o l aa] 1 =
      some 0 := by
    simp [parentOf, show List.range 1 = [0] from by decide, List.find?, List.getD, hc]
  have h0 : parentOf [Op.mk "person" o l ap, Op.mk "abbrev" o l aa] 0 =
      none := rfl
  refine ⟨h1, h0, ?_, ?_, ?_⟩
  · simp [rootsOf, show List.range 2 = [0, 1] from by decide, h1, h0,
      List.filter]
  · simp [childrenOf, show List.range 2 = [0, 1] from by decide, h1, h0,
      List.filter]
  · simp [childrenOf, show List.range 2 = [0, 1] from by decide, h1, h0,
      List.filter]

theorem c2_render1 (text : Str) (o l : Nat) (hl : 0 < l)
    (ap aa : List (String × String)) :
    renderWrapperF text [] [Op.mk "person" o l ap, Op.mk "abbrev" o l aa]
        1 1 =
      ((slice text o (o + l)).takeWhile isWS,
       mkChoiceEl [(mkEl "abbr").withText
           (dropTrail ((slice text o (o + l)).dropWhile isWS)),
         (mkEl "expan").withText
           (toStr ((Op.mk "abbrev" o l aa).getD "expansion" ""))],
       takeTrail ((slice text o (o + l)).dropWhile isWS)) := by
  rw [show renderWrapperF text []
      [Op.mk "person" o l ap, Op.mk "abbrev" o l aa] 1 1 =
    renderWrapperF text []
      [Op.mk "person" o l ap, Op.mk "abbrev" o l aa] (0 + 1) 1 from rfl]
  simp only [renderWrapperF]
  rw [(c2_forest o l ap aa).2.2.2.2]
  simp only [pySort, List.insertionSort, List.map_nil]
  simp only [assembleGo]
  rw [show ([Op.mk "person" o l ap, Op.mk "abbrev" o l aa].getD 1
      dummyOp) = Op.mk "abbrev" o l aa from rfl]
  rw [show (Op.mk "abbrev" o l aa).offset = o from rfl,
    show (Op.mk "abbrev" o l aa).stop = o + l from rfl]
  rw [if_pos (show o < o + l from by omega)]
  exact abbrev_triple text o l aa

theorem c2_render0 (text : Str) (o l : Nat) (hl : 0 < l)
    (ap aa : List (String × String)) :
    renderWrapperF text [] [Op.mk "person" o l ap, Op.mk "abbrev" o l aa]
        2 0 =
      (((slice text o (o + l)).takeWhile isWS).takeWhile isWS,
       ((mkPers (Op.mk "person" o l ap)).withText
           (((slice text o (o + l)).takeWhile isWS).dropWhile isWS)).withKids
         [(mkChoiceEl [(mkEl "abbr").withText
             (dropTrail ((slice text o (o + l)).dropWhile isWS)),
           (mkEl "expan").withText
             (toStr ((Op.mk "abbrev" o l aa).getD "expansion" ""))]).withTail
           (dropTrail (takeTrail ((slice text o (o + l)).dropWhile isWS)))],
       takeTrail (takeTrail ((slice text o (o + l)).dropWhile isWS))) := by
  rw [show renderWrapperF text []
      [Op.mk "person" o l ap, Op.mk "abbrev" o l aa] 2 0 =
    build_wrapper_element text
      ([Op.mk "person" o l ap, Op.mk "abbrev" o l aa].getD 0 dummyOp)
      (assembleGo text []
        ([Op.mk "person" o l ap, Op.mk "abbrev" o l aa].getD 0 dummyOp).stop
        ([Op.mk "person" o l ap,
          Op.mk "abbrev" o l aa].getD 0 dummyOp).offset
        ((pySort (byOffsetLe [Op.mk "person" o l ap, Op.mk "abbrev" o l aa])
            (childrenOf [Op.mk "person" o l ap,
              Op.mk "abbrev" o l aa] 0)).map
          (fun c =>
            ([Op.mk "person" o l ap, Op.mk "abbrev" o l aa].getD c dummyOp,
             renderWrapperF text []
               [Op.mk "person" o l ap, Op.mk "abbrev" o l aa] 1 c))))
    from rfl]
  rw [(c2_forest o l ap aa).2.2.2.1]
  simp only [pySort, List.insertionSort, List.orderedInsert, List.map_cons,
    List.map_nil]
  rw [c2_render1 text o l hl ap aa]
  rw [show ([Op.mk "person" o l ap, Op.mk "abbrev" o l aa].getD 0
      dummyOp) = Op.mk "person" o l ap from rfl,
    show ([Op.mk "person" o l ap, Op.mk "abbrev" o l aa].getD 1
      dummyOp) = Op.mk "abbrev" o l aa from rfl]
  simp only [assembleGo]
  rw [show (Op.mk "abbrev" o l aa).stop = o + l from rfl,
    show (Op.mk "person" o l ap).stop = o + l from rfl]
  rw [if_neg (Nat.lt_irrefl o), if_neg (Nat.lt_irrefl (o + l))]
  rw [List.nil_append, List.append_nil]
  simp only [build_wrapper_element]
  rw [if_pos trivial]
  exact populate_emit (mkPers (Op.mk "person" o l ap)) _ _ _
    (mkPers_parts (Op.mk "person" o l ap)).2.1
    (mkPers_parts (Op.mk "person" o l ap)).2.2.1 rfl

theorem el_mem_opt_a {e : Elem} {x : Str} {c : Prop} [Decidable c]
    (h : Node.el e ∈ (if c then ([] : List Node) else [Node.txt x])) :
    False := by
  revert h
  split
  · intro h
    exact (List.not_mem_nil _) h
  · intro h
    rw [List.mem_singleton] at h
    exact Node.noConfusion h

theorem el_mem_opt_b {e : Elem} {x : Str} {c : Prop} [Decidable c]
    (h : Node.el e ∈ (if c then [Node.txt x] else ([] : List Node))) :
    False := by
  revert h
  split
  · intro h
    rw [List.mem_singleton] at h
    exact Node.noConfusion h
  · intro h
    exact (List.not_mem_nil _) h

theorem c2_out (text : Str) (o l : Nat) (hl : 0 < l)
    (ap aa : List (String × String)) (ops : List Op)
    (hops : ops = [Op.mk "person" o l ap, Op.mk "abbrev" o l aa] ∨
      ops = [Op.mk "abbrev" o l aa, Op.mk "person" o l ap]) :
    build_inline_nodes_for_line text ops =
      (if slice text 0 o = [] then [] else [Node.txt (slice text 0 o)]) ++
      emitTriple
        (((slice text o (o + l)).takeWhile isWS).takeWhile isWS,
         ((mkPers (Op.mk "person" o l ap)).withText
             (((slice text o (o + l)).takeWhile isWS).dropWhile
               isWS)).withKids
           [(mkChoiceEl [(mkEl "abbr").withText
               (dropTrail ((slice text o (o + l)).dropWhile isWS)),
             (mkEl "expan").withText
               (toStr ((Op.mk "abbrev" o l aa).getD "expansion"
                 ""))]).withTail
             (dropTrail (takeTrail ((slice text o (o + l)).dropWhile
               isWS)))],
         takeTrail (takeTrail ((slice text o (o + l)).dropWhile isWS))) ++
      (if slice text (o + l) text.length = [] then []
       else [Node.txt (slice text (o + l) text.length)]) := by
  have hws : wrappersOf ops =
      [Op.mk "person" o l ap, Op.mk "abbrev" o l aa] := by
    rcases hops with rfl | rfl
    · exact (c2_ws o l hl ap aa).1
    · exact (c2_ws o l hl ap aa).2
  have hsops : style_ops_of ops = [] := by
    rcases hops with rfl | rfl <;> rfl
  have hpops : person_ops ops = [Op.mk "person" o l ap] := by
    rcases hops with rfl | rfl <;> simp [person_ops, hl]
  have hcops : choice_ops ops = [Op.mk "abbrev" o l aa] := by
    rcases hops with rfl | rfl <;> simp [choice_ops, isChoiceKind, hl]
  simp only [build_inline_nodes_for_line]
  rw [hws, hsops, hpops, hcops]
  rw [(c2_forest o l ap aa).2.2.1]
  rw [if_neg (show ¬([0] : List Nat) = [] from by decide)]
  rw [show pySort (byOffsetLe [Op.mk "person" o l ap,
    Op.mk "abbrev" o l aa]) [0] = [0] from rfl]
  rw [List.map_cons, List.map_nil]
  rw [show ([Op.mk "person" o l ap, Op.mk "abbrev" o l aa].getD 0
    dummyOp) = Op.mk "person" o l ap from rfl]
  rw [show renderWrapper text [] [Op.mk "person" o l ap,
      Op.mk "abbrev" o l aa] 0 =
    renderWrapperF text [] [Op.mk "person" o l ap,
      Op.mk "abbrev" o l aa] 2 0 from rfl]
  rw [c2_render0 text o l hl ap aa]
  simp only [assembleGo]
  rw [show (Op.mk "person" o l ap).stop = o + l from rfl]
  have hpre : (if 0 < (Op.mk "person" o l ap).offset then
      render_plain_segment text [] 0 (Op.mk "person" o l ap).offset
      else []) =
      (if slice text 0 o = [] then []
       else [Node.txt (slice text 0 o)]) := by
    rw [show (Op.mk "person" o l ap).offset = o from rfl]
    by_cases ho : 0 < o
    · rw [if_pos ho, render_plain_nostyle]
    · rw [if_neg ho, show o = 0 from by omega, if_pos (slice_self text 0)]
  have hpost : (if o + l < text.length then
      render_plain_segment text [] (o + l) text.length else []) =
      (if slice text (o + l) text.length = [] then []
       else [Node.txt (slice text (o + l) text.length)]) := by
    by_cases he : o + l < text.length
    · rw [if_pos he, render_plain_nostyle]
    · rw [if_neg he, if_pos (slice_of_ge text text.length (by omega))]
  rw [hpre, hpost]
  rw [unify, List.foldl_cons, List.foldl_nil]
  apply unifyPerson_skip
  intro e he
  rcases List.mem_append.mp he with h12 | h3
  · rcases List.mem_append.mp h12 with h1 | h2
    · exact (el_mem_opt_a h1).elim
    · simp only [emitTriple] at h2
      rcases List.mem_append.mp h2 with h46 | h7
      · rcases List.mem_append.mp h46 with h4 | h6
        · exact (el_mem_opt_b h4).elim
        · rw [List.mem_singleton] at h6
          injection h6 with h6
          subst h6
          rw [(withKids_parts _ _).1, (withText_parts _ _).1]
          exact (mkPers_parts _).1
      · exact (el_mem_opt_b h7).elim
  · exact (el_mem_opt_a h3).elim

/-- Claim C2: two spans over an identical nonempty interval, one person
and one abbrev, in either input order, always render the person wrapper
as an ancestor of the alternation pair: the output holds a `persName`
element with a `choice` in its subtree, and no `choice` element anywhere
in the output has a `persName` below it. -/
theorem claim_C2 (text : Str) (o l : Nat) (hl : 0 < l)
    (ap aa : List (String × String)) (ops : List Op)
    (hops : ops = [Op.mk "person" o l ap, Op.mk "abbrev" o l aa] ∨
      ops = [Op.mk "abbrev" o l aa, Op.mk "person" o l ap]) :
    (∃ pe : Elem, Node.el pe ∈ build_inline_nodes_for_line text ops ∧
      pe.tag = "persName" ∧ hasTagKids "choice" pe.kids = true) ∧
    ∀ n ∈ build_inline_nodes_for_line text ops,
      nodeNoPersInChoice n = true := by
  rw [c2_out text o l hl ap aa ops hops]
  constructor
  · refine ⟨((mkPers (Op.mk "person" o l ap)).withText
        (((slice text o (o + l)).takeWhile isWS).dropWhile isWS)).withKids
      [(mkChoiceEl [(mkEl "abbr").withText
          (dropTrail ((slice text o (o + l)).dropWhile isWS)),
        (mkEl "expan").withText
          (toStr ((Op.mk "abbrev" o l aa).getD "expansion" ""))]).withTail
        (dropTrail (takeTrail ((slice text o (o + l)).dropWhile isWS)))],
      ?_, ?_, ?_⟩
    · simp [emitTriple]
    · rw [(withKids_parts _ _).1, (withText_parts _ _).1]
      exact (mkPers_parts _).1
    · rw [(withKids_parts _ _).2.2.2.1]
      simp [hasTagKids, hasTagEl_parts, mkChoiceEl]
  · intro n hn
    rcases List.mem_append.mp hn with h12 | h3
    · rcases List.mem_append.mp h12 with h1 | h2
      · revert h1
        split
        · intro h1
          exact absurd h1 (List.not_mem_nil _)
        · intro h1
          rw [List.mem_singleton] at h1
          subst h1
          rfl
      · simp only [emitTriple] at h2
        rcases List.mem_append.mp h2 with h46 | h7
        · rcases List.mem_append.mp h46 with h4 | h6
          · revert h4
            split
            · intro h4
              rw [List.mem_singleton] at h4
              subst h4
              rfl
            · intro h4
              exact absurd h4 (List.not_mem_nil _)
          · rw [List.mem_singleton] at h6
            subst h6
            show noPersInChoice _ = true
            simp [noPersInChoice_parts, noPersInChoiceKids, hasTagKids,
              hasTagEl_parts, mkChoiceEl, mkEl,
              (mkPers_parts (Op.mk "person" o l ap)).1]
        · revert h7
          split
          · intro h7
            rw [List.mem_singleton] at h7
            subst h7
            rfl
          · intro h7
            exact absurd h7 (List.not_mem_nil _)
    · revert h3
      split
      · intro h3
        exact absurd h3 (List.not_mem_nil _)
      · intro h3
        rw [List.mem_singleton] at h3
        subst h3
        rfl

/-- Witness for C2 on the text Marcus with identical intervals. -/
theorem claim_C2_witness :
    (∃ pe : Elem, Node.el pe ∈ build_inline_nodes_for_line (toStr "Marcus")
        [Op.mk "person" 0 6 [], Op.mk "abbrev" 0 6 []] ∧
      pe.tag = "persName" ∧ hasTagKids "choice" pe.kids = true) ∧
    ∀ n ∈ build_inline_nodes_for_line (toStr "Marcus")
        [Op.mk "person" 0 6 [], Op.mk "abbrev" 0 6 []],
      nodeNoPersInChoice n = true :=
  claim_C2 (toStr "Marcus") 0 6 (by decide) [] []
    [Op.mk "person" 0 6 [], Op.mk "abbrev" 0 6 []] (Or.inl rfl)

/-! Machinery for the text-preservation claim. -/

theorem slice_full (t : Str) {b x : Nat} (hx : t.length ≤ x)
    (hbx : b ≤ x) : slice t b x = t.drop b := by
  rw [slice]
  apply List.take_of_length_le
  rw [List.length_drop]
  omega

theorem slice_chain (t : Str) {a b c e : Nat} (h1 : a ≤ b) (h2 : b ≤ c)
    (h3 : c ≤ e ∨ t.length ≤ e) :
    slice t a b ++ slice t b c ++ slice t c e = slice t a e := by
  by_cases hce : c ≤ e
  · rw [slice_append t h1 h2]
    exact slice_append t (Nat.le_trans h1 h2) hce
  · have hlen : t.length ≤ e := h3.resolve_left hce
    have hec : e ≤ c := by omega
    rw [slice_of_le t hec, List.append_nil]
    by_cases hbl : t.length ≤ b
    · rw [slice_of_ge t c hbl, List.append_nil]
      by_cases hae : a ≤ e
      · rw [slice_full t hbl h1, slice_full t hlen hae]
      · have hea : e ≤ a := by omega
        rw [slice_of_le t hea]
        exact slice_of_ge t b (by omega)
    · have hbl2 : b ≤ t.length := by omega
      have hclen : t.length ≤ c := by omega
      rw [show slice t b c = slice t b t.length from by
        rw [slice_full t hclen h2, slice_full t (Nat.le_refl _) hbl2]]
      rw [slice_append t h1 hbl2]
      rw [slice_full t (Nat.le_refl _) (Nat.le_trans h1 hbl2),
        slice_full t hlen (by omega)]

/-- The interval discipline of one assembly walk: the cursor never
passes an item, and items end inside the range (or the range covers the
whole text). -/
def chainOK (text : Str) : Nat → Nat → List (Op × (Str × Elem × Str)) →
    Prop
  | _, _, [] => True
  | cursor, e, (w, _) :: rest =>
    cursor ≤ w.offset ∧ (w.stop ≤ e ∨ text.length ≤ e) ∧
      chainOK text w.stop e rest

theorem emit_flatW (tr : Str × Elem × Str) (h : tr.2.1.tail = []) :
    flatWNodes (emitTriple tr) = tr.1 ++ flatW tr.2.1 ++ tr.2.2 := by
  obtain ⟨ld, el2, trl⟩ := tr
  have h2 : el2.tail = [] := h
  by_cases hld : ld = [] <;> by_cases htr : trl = [] <;>
    simp [emitTriple, hld, htr, flatWNodes_append, flatWNodes_cons_txt,
      flatWNodes_cons_el, flatWNodes_nil, h2]

theorem assembleGo_flatW (text : Str) (sops : List Op) :
    ∀ (items : List (Op × (Str × Elem × Str))) (cursor e : Nat),
      (∀ it ∈ items,
        it.2.1 ++ flatW it.2.2.1 ++ it.2.2.2 =
          slice text it.1.offset it.1.stop ∧ it.2.2.1.tail = []) →
      chainOK text cursor e items →
      flatWNodes (assembleGo text sops e cursor items) =
        slice text cursor e := by
  intro items
  induction items with
  | nil =>
    intro cursor e _ _
    rw [assembleGo]
    split
    · exact render_plain_flatW text sops cursor e
    · rw [flatWNodes_nil, slice_of_le text (by omega)]
  | cons it rest ih =>
    intro cursor e hitems hchain
    obtain ⟨w, tr⟩ := it
    rw [assembleGo]
    obtain ⟨hc1, hc2, hc3⟩ := hchain
    rw [flatWNodes_append, flatWNodes_append]
    have htr1 : tr.1 ++ flatW tr.2.1 ++ tr.2.2 =
        slice text w.offset w.stop :=
      (hitems (w, tr) (List.mem_cons_self _ _)).1
    have htr2 : tr.2.1.tail = [] :=
      (hitems (w, tr) (List.mem_cons_self _ _)).2
    rw [emit_flatW tr htr2, htr1]
    rw [ih w.stop e (fun it hit => hitems it (List.mem_cons_of_mem _ hit))
      hc3]
    have hpre : flatWNodes (if cursor < w.offset then
        render_plain_segment text sops cursor w.offset else []) =
        slice text cursor w.offset := by
      rcases Nat.lt_or_ge cursor w.offset with hlt | hge
      · rw [if_pos hlt]
        exact render_plain_flatW text sops cursor w.offset
      · rw [if_neg (Nat.not_lt.mpr hge), flatWNodes_nil,
          slice_of_le text (by omega)]
    rw [hpre]
    exact slice_chain text hc1
      (show w.offset ≤ w.stop from by
        have hst : w.stop = w.offset + w.length := rfl
        omega) hc2

theorem assembleGo_geo (text : Str) (sops : List Op) :
    ∀ (items : List (Op × (Str × Elem × Str))) (cursor e : Nat),
      (∀ it ∈ items, isGeoTag it.2.2.1.tag = false) →
      ∀ ev : Elem, Node.el ev ∈ assembleGo text sops e cursor items →
        isGeoTag ev.tag = false := by
  intro items
  induction items with
  | nil =>
    intro cursor e _ ev hev
    rw [assembleGo] at hev
    revert hev
    split
    · intro hev
      have hh := render_plain_tags text sops cursor e _ hev ev rfl
      rw [hh.1]
      decide
    · intro hev
      exact absurd hev (List.not_mem_nil _)
  | cons it rest ih =>
    intro cursor e hgeo ev hev
    obtain ⟨w, tr⟩ := it
    rw [assembleGo] at hev
    rcases List.mem_append.mp hev with h12 | h3
    · rcases List.mem_append.mp h12 with h1 | h2
      · revert h1
        split
        · intro h1
          have hh := render_plain_tags text sops cursor w.offset _ h1 ev rfl
          rw [hh.1]
          decide
        · intro h1
          exact absurd h1 (List.not_mem_nil _)
      · simp only [emitTriple] at h2
        rcases List.mem_append.mp h2 with h46 | h7
        · rcases List.mem_append.mp h46 with h4 | h6
          · exact (el_mem_opt_b h4).elim
          · rw [List.mem_singleton] at h6
            injection h6 with h6
            subst h6
            exact hgeo (w, tr) (List.mem_cons_self _ _)
        · exact (el_mem_opt_b h7).elim
    · exact ih w.stop e (fun it hit => hgeo it (List.mem_cons_of_mem _ hit))
        ev h3

/-- Shape of a freshly created wrapper target. -/
def freshAs (tg : String) (e : Elem) : Prop :=
  e.tag = tg ∧ e.text = [] ∧ e.kids = [] ∧ e.tail = []

theorem freshAs_mkEl (tg : String) : freshAs tg (mkEl tg) :=
  ⟨rfl, rfl, rfl, rfl⟩

theorem freshAs_setAttr (tg : String) (e : Elem) (k v : String)
    (h : freshAs tg e) : freshAs tg (e.setAttr k v) := by
  rw [freshAs, (setAttr_parts e k v).1, (setAttr_parts e k v).2.2.1,
    (setAttr_parts e k v).2.2.2.1, (setAttr_parts e k v).2.2.2.2]
  exact h

theorem freshAs_setIfPresent (tg : String) (e : Elem) (w : Op)
    (k : String) (h : freshAs tg e) : freshAs tg (setIfPresent e w k) := by
  have hp := setIfPresent_parts e w k
  rw [freshAs, hp.1, hp.2.1, hp.2.2.1, hp.2.2.2]
  exact h

theorem freshAs_mkPers (p : Op) : freshAs "persName" (mkPers p) :=
  mkPers_parts p

theorem freshAs_foldl_data (tg : String) :
    ∀ (l : List (String × String)) (e : Elem), freshAs tg e →
      freshAs tg (l.foldl
        (fun e2 p => e2.setAttr ("data-" ++ p.1) p.2) e) := by
  intro l
  induction l with
  | nil =>
    intro e h
    exact h
  | cons a rest ih =>
    intro e h
    rw [List.foldl_cons]
    exact ih _ (freshAs_setAttr tg e _ _ h)

theorem flatWKids_geo_nil (ks : List Elem)
    (h : ∀ k ∈ ks, isGeoTag k.tag = true) :
    flatWKids true ks = [] := by
  induction ks with
  | nil => rfl
  | cons c cs ih =>
    rw [flatWKids_cons]
    simp [h c (List.mem_cons_self _ _),
      ih (fun k hk => h k (List.mem_cons_of_mem _ hk))]

theorem flatW_parts (e : Elem) :
    flatW e = e.text ++ (if e.tag = "choice" then
        match e.kids with
        | [b, c] =>
          if b.tag = "abbr" ∨ b.tag = "sic" then flatW b ++ b.tail
          else flatW c ++ c.tail
        | _ => flatWKids false e.kids
      else flatWKids (e.tag == "placeName") e.kids) := by
  obtain ⟨t, a, x, ks, l⟩ := e
  exact flatW_eq t a x ks l

/-- Core lemma for the preservation claim: every wrapper shape hands
back exactly the witness content of its inner nodes (given no explicit
regularised attribute), with an empty tail and a non-geographic tag. -/
theorem build_wrapper_flatW (text : Str) (w : Op) (inner : List Node)
    (hregn : w.kind = "regularised" →
      pyOr (w.get "regularised") (w.get "reg") = none)
    (hgeo : ∀ ev : Elem, Node.el ev ∈ inner → isGeoTag ev.tag = false) :
    (build_wrapper_element text w inner).1 ++
      flatW (build_wrapper_element text w inner).2.1 ++
      (build_wrapper_element text w inner).2.2 = flatWNodes inner ∧
    (build_wrapper_element text w inner).2.1.tail = [] ∧
    isGeoTag (build_wrapper_element text w inner).2.1.tag = false := by
  simp only [build_wrapper_element]
  by_cases hab : w.kind = "abbrev"
  · rw [if_pos hab]
    dsimp only [mkChoiceEl]
    refine ⟨?_, rfl, by rw [Elem_tag_mk]; decide⟩
    rw [flatW_choice]
    rw [if_pos (Or.inl (show (populate_target_with_nodes (mkEl "abbr")
      inner).2.1.tag = "abbr" from (populate_parts _ _).1))]
    rw [show (populate_target_with_nodes (mkEl "abbr") inner).2.1.tail =
      [] from (populate_parts _ _).2.2]
    simp only [List.append_nil, List.nil_append]
    exact populate_flatW (mkEl "abbr") inner (by decide)
      (fun h => absurd h (by decide)) rfl rfl
  rw [if_neg hab]
  by_cases hsic : w.kind = "sic"
  · rw [if_pos hsic]
    dsimp only [mkChoiceEl]
    refine ⟨?_, rfl, by rw [Elem_tag_mk]; decide⟩
    rw [flatW_choice]
    rw [if_pos (Or.inr (show (populate_target_with_nodes (mkEl "sic")
      inner).2.1.tag = "sic" from (populate_parts _ _).1))]
    rw [show (populate_target_with_nodes (mkEl "sic") inner).2.1.tail =
      [] from (populate_parts _ _).2.2]
    simp only [List.append_nil, List.nil_append]
    exact populate_flatW (mkEl "sic") inner (by decide)
      (fun h => absurd h (by decide)) rfl rfl
  rw [if_neg hsic]
  by_cases hrg : w.kind = "regularised"
  · rw [if_pos hrg]
    rw [hregn hrg]
    dsimp only [mkChoiceEl]
    refine ⟨?_, rfl, by rw [Elem_tag_mk]; decide⟩
    rw [flatW_choice]
    rw [if_neg (show ¬(((mkEl "orig").withText
        (toStr (match pyOr (w.get "original") (w.get "orig") with
          | some s => s
          | none => w.getD "original" ""))).tag = "abbr" ∨
        ((mkEl "orig").withText
        (toStr (match pyOr (w.get "original") (w.get "orig") with
          | some s => s
          | none => w.getD "original" ""))).tag = "sic") from by
      rw [(withText_parts _ _).1]
      decide)]
    rw [show (populate_target_with_nodes (mkEl "reg") inner).2.1.tail =
      [] from (populate_parts _ _).2.2]
    simp only [List.append_nil, List.nil_append]
    exact populate_flatW (mkEl "reg") inner (by decide)
      (fun h => absurd h (by decide)) rfl rfl
  rw [if_neg hrg]
  by_cases hnum : w.kind = "num"
  · rw [if_pos hnum]
    have hfresh : freshAs "num"
        (setIfPresent (setIfPresent (mkEl "num") w "type") w "value") :=
      freshAs_setIfPresent _ _ _ _
        (freshAs_setIfPresent _ _ _ _ (freshAs_mkEl "num"))
    refine ⟨?_, ?_, ?_⟩
    · exact populate_flatW _ inner (by rw [hfresh.1]; decide)
        (fun h => absurd (hfresh.1.symm.trans h) (by decide))
        hfresh.2.1 hfresh.2.2.1
    · rw [(populate_parts _ inner).2.2, hfresh.2.2.2]
    · rw [(populate_parts _ inner).1, hfresh.1]
      decide
  rw [if_neg hnum]
  by_cases hper : w.kind = "person"
  · rw [if_pos hper]
    have hfresh : freshAs "persName" (mkPers w) := freshAs_mkPers w
    refine ⟨?_, ?_, ?_⟩
    · exact populate_flatW _ inner (by rw [hfresh.1]; decide)
        (fun h => absurd (hfresh.1.symm.trans h) (by decide))
        hfresh.2.1 hfresh.2.2.1
    · rw [(populate_parts _ inner).2.2, hfresh.2.2.2]
    · rw [(populate_parts _ inner).1, hfresh.1]
      decide
  rw [if_neg hper]
  by_cases hpl : w.kind = "place"
  · rw [if_pos hpl]
    dsimp only
    have hng : ∀ k ∈ (populate_target_with_nodes (mkEl "placeName")
        inner).2.1.kids, isGeoTag k.tag = false := by
      intro k hk
      obtain ⟨ev, hev, hc⟩ :=
        populate_kids_core (mkEl "placeName") inner rfl k hk
      rw [hc.1]
      exact hgeo ev hev
    have hgk : ∀ k ∈ (["country", "region", "settlement",
        "district"]).filterMap (fun k2 => (w.get k2).map
          (fun v => Elem.mk k2 [] (toStr v) [] [])),
        isGeoTag k.tag = true := by
      intro k hk
      rw [List.mem_filterMap] at hk
      obtain ⟨k0, hk0, hmap⟩ := hk
      obtain ⟨v, _, hkv⟩ := Option.map_eq_some'.mp hmap
      subst hkv
      rw [Elem_tag_mk]
      fin_cases hk0 <;> decide
    have hmain := populate_flatW (mkEl "placeName") inner (by decide)
      (fun _ => hgeo) rfl rfl
    refine ⟨?_, ?_, ?_⟩
    · rw [flatW_parts]
      rw [(withKids_parts _ _).1, (populate_parts _ inner).1]
      rw [if_neg (show ¬(mkEl "placeName").tag = "choice" from by decide)]
      rw [(withKids_parts _ _).2.2.1, (withKids_parts _ _).2.2.2.1]
      rw [show ((mkEl "placeName").tag == "placeName") = true from
        by decide]
      rw [flatWKids_append]
      rw [flatWKids_geo_nil _ hgk, List.append_nil]
      rw [flatWKids_nongeo _ hng]
      rw [flatW_parts] at hmain
      rw [(populate_parts _ inner).1] at hmain
      rw [if_neg (show ¬(mkEl "placeName").tag = "choice" from by decide)]
        at hmain
      rw [show ((mkEl "placeName").tag == "placeName") = true from
        by decide] at hmain
      rw [flatWKids_nongeo _ hng] at hmain
      exact hmain
    · rw [(withKids_parts _ _).2.2.2.2, (populate_parts _ inner).2.2]
      rfl
    · rw [(withKids_parts _ _).1, (populate_parts _ inner).1]
      decide
  rw [if_neg hpl]
  by_cases href : w.kind = "ref"
  · rw [if_pos href]
    have hfresh : freshAs "ref"
        (setIfPresent (setIfPresent (mkEl "ref") w "type") w "target") :=
      freshAs_setIfPresent _ _ _ _
        (freshAs_setIfPresent _ _ _ _ (freshAs_mkEl "ref"))
    refine ⟨?_, ?_, ?_⟩
    · exact populate_flatW _ inner (by rw [hfresh.1]; decide)
        (fun h => absurd (hfresh.1.symm.trans h) (by decide))
        hfresh.2.1 hfresh.2.2.1
    · rw [(populate_parts _ inner).2.2, hfresh.2.2.2]
    · rw [(populate_parts _ inner).1, hfresh.1]
      decide
  rw [if_neg href]
  by_cases hunc : w.kind = "unclear"
  · rw [if_pos hunc]
    have hfresh : freshAs "unclear"
        (setIfPresent (mkEl "unclear") w "reason") :=
      freshAs_setIfPresent _ _ _ _ (freshAs_mkEl "unclear")
    refine ⟨?_, ?_, ?_⟩
    · exact populate_flatW _ inner (by rw [hfresh.1]; decide)
        (fun h => absurd (hfresh.1.symm.trans h) (by decide))
        hfresh.2.1 hfresh.2.2.1
    · rw [(populate_parts _ inner).2.2, hfresh.2.2.2]
    · rw [(populate_parts _ inner).1, hfresh.1]
      decide
  rw [if_neg hunc]
  have hfresh : freshAs "seg"
      ((w.attrs.filter (fun p =>
        !(p.1 == "kind" || p.1 == "offset" || p.1 == "length" ||
          p.1 == "end"))).foldl
        (fun e p => e.setAttr ("data-" ++ p.1) p.2)
        ((mkEl "seg").setAttr "type" w.kind)) :=
    freshAs_foldl_data _ _ _ (freshAs_setAttr _ _ _ _ (freshAs_mkEl "seg"))
  refine ⟨?_, ?_, ?_⟩
  · exact populate_flatW _ inner (by rw [hfresh.1]; decide)
      (fun h => absurd (hfresh.1.symm.trans h) (by decide))
      hfresh.2.1 hfresh.2.2.1
  · rw [(populate_parts _ inner).2.2, hfresh.2.2.2]
  · rw [(populate_parts _ inner).1, hfresh.1]
    decide

/-- Nested or disjoint intervals: the laminar-family condition. -/
def nod (a b : Op) : Prop :=
  a.stop ≤ b.offset ∨ b.stop ≤ a.offset ∨
    (a.offset ≤ b.offset ∧ b.stop ≤ a.stop) ∨
    (b.offset ≤ a.offset ∧ a.stop ≤ b.stop)

instance (a b : Op) : Decidable (nod a b) :=
  inferInstanceAs (Decidable (a.stop ≤ b.offset ∨ b.stop ≤ a.offset ∨
    (a.offset ≤ b.offset ∧ b.stop ≤ a.stop) ∨
    (b.offset ≤ a.offset ∧ a.stop ≤ b.stop)))

theorem getD_mem {l : List Op} {n : Nat} (h : n < l.length) :
    l.getD n dummyOp ∈ l := by
  rw [List.getD_eq_getElem l dummyOp h]
  exact List.getElem_mem h

theorem filter_mem_pos {ops : List Op} {w : Op} (g : Op → Bool)
    (h : w ∈ ops.filter (fun o => g o && decide (0 < o.length))) :
    w ∈ ops ∧ 0 < w.length := by
  rw [List.mem_filter] at h
  refine ⟨h.1, ?_⟩
  have h2 := h.2
  simp only [Bool.and_eq_true, decide_eq_true_eq] at h2
  exact h2.2

theorem wrappersOf_mem_pos {w : Op} {ops : List Op}
    (h : w ∈ wrappersOf ops) : w ∈ ops ∧ 0 < w.length := by
  rw [wrappersOf, pySort_mem] at h
  rcases List.mem_append.mp h with h | h
  · rcases List.mem_append.mp h with h | h
    · rcases List.mem_append.mp h with h | h
      · rcases List.mem_append.mp h with h | h
        · rcases List.mem_append.mp h with h | h
          · rcases List.mem_append.mp h with h | h
            · exact filter_mem_pos _ h
            · exact filter_mem_pos _ h
          · exact filter_mem_pos _ h
        · exact filter_mem_pos _ h
      · exact filter_mem_pos _ h
    · exact filter_mem_pos _ h
  · exact filter_mem_pos _ h

theorem parentOf_contains {ws : List Op} {c idx : Nat}
    (h : parentOf ws c = some idx) :
    containsB (ws.getD idx dummyOp) (ws.getD c dummyOp) = true :=
  (findDown_spec ws (ws.getD c dummyOp) c idx h).2.1

theorem childrenOf_par {ws : List Op} {idx c : Nat}
    (h : c ∈ childrenOf ws idx) : parentOf ws c = some idx := by
  rw [childrenOf, List.mem_filter] at h
  exact eq_of_beq h.2

theorem rootsOf_par {ws : List Op} {r : Nat} (h : r ∈ rootsOf ws) :
    parentOf ws r = none := by
  rw [rootsOf, List.mem_filter] at h
  exact Option.isNone_iff_eq_none.mp h.2

theorem rootsOf_lt {ws : List Op} {r : Nat} (h : r ∈ rootsOf ws) :
    r < ws.length := by
  rw [rootsOf, List.mem_filter, List.mem_range] at h
  exact h.1

/-- Two distinct entries of the sorted wrappers list that share a parent
slot are disjoint, the smaller index ending before the larger begins. -/
theorem sibling_disjoint (ops : List Op)
    (hlam : ∀ a ∈ ops, ∀ b ∈ ops, nod a b)
    {i j : Nat} (hij : i < j) (hjlen : j < (wrappersOf ops).length)
    (hpar : parentOf (wrappersOf ops) i = parentOf (wrappersOf ops) j) :
    ((wrappersOf ops).getD i dummyOp).stop ≤
      ((wrappersOf ops).getD j dummyOp).offset := by
  have hilen : i < (wrappersOf ops).length := Nat.lt_trans hij hjlen
  have hmi := wrappersOf_mem_pos (getD_mem hilen)
  have hmj := wrappersOf_mem_pos (getD_mem hjlen)
  have hsorted : List.Sorted (fun x y => wrapperLe x y = true)
      (wrappersOf ops) := pySortWrapper_sorted _
  have hle := sorted_getD_le hsorted hij hjlen
  rw [wrapperLe, decide_eq_true_eq] at hle
  have hnod := hlam _ hmi.1 _ hmj.1
  have hstopi : ((wrappersOf ops).getD i dummyOp).stop =
      ((wrappersOf ops).getD i dummyOp).offset +
        ((wrappersOf ops).getD i dummyOp).length := rfl
  have hstopj : ((wrappersOf ops).getD j dummyOp).stop =
      ((wrappersOf ops).getD j dummyOp).offset +
        ((wrappersOf ops).getD j dummyOp).length := rfl
  have hcont : containsB ((wrappersOf ops).getD i dummyOp)
      ((wrappersOf ops).getD j dummyOp) = true ∨
      ((wrappersOf ops).getD i dummyOp).stop ≤
        ((wrappersOf ops).getD j dummyOp).offset := by
    rcases hnod with h | h | h | h
    · exact Or.inr h
    · exfalso
      have hmj2 := hmj.2
      omega
    · exact Or.inl (by rw [containsB, decide_eq_true_eq]; exact h)
    · have heq : ((wrappersOf ops).getD i dummyOp).offset =
          ((wrappersOf ops).getD j dummyOp).offset ∧
          ((wrappersOf ops).getD i dummyOp).stop =
          ((wrappersOf ops).getD j dummyOp).stop := by omega
      exact Or.inl (by rw [containsB, decide_eq_true_eq]; omega)
  rcases hcont with hcont | hdone
  · exfalso
    obtain ⟨p, hp⟩ := findDown_exists (wrappersOf ops)
      ((wrappersOf ops).getD j dummyOp) j i hij hcont
    obtain ⟨hplt, hppred, hpmax⟩ :=
      findDown_spec (wrappersOf ops) ((wrappersOf ops).getD j dummyOp)
        j p hp
    have hip : i ≤ p := by
      by_contra hip
      have hmx := hpmax i (by omega) hij
      rw [hcont] at hmx
      exact Bool.noConfusion hmx
    have hpj : parentOf (wrappersOf ops) j = some p := hp
    rw [hpj] at hpar
    have := parentOf_lt hpar
    omega
  · exact hdone

theorem byOffsetLe_total (ws : List Op) (a b : Nat) :
    byOffsetLe ws a b = true ∨ byOffsetLe ws b a = true := by
  rw [byOffsetLe, byOffsetLe, decide_eq_true_eq, decide_eq_true_eq]
  omega

theorem byOffsetLe_trans (ws : List Op) {a b c : Nat}
    (h1 : byOffsetLe ws a b = true) (h2 : byOffsetLe ws b c = true) :
    byOffsetLe ws a c = true := by
  rw [byOffsetLe, decide_eq_true_eq] at h1 h2 ⊢
  omega

theorem pySortOffset_sorted (ws : List Op) (l : List Nat) :
    List.Sorted (fun a b => byOffsetLe ws a b = true)
      (pySort (byOffsetLe ws) l) := by
  haveI : IsTotal Nat (fun a b => byOffsetLe ws a b = true) :=
    ⟨byOffsetLe_total ws⟩
  haveI : IsTrans Nat (fun a b => byOffsetLe ws a b = true) :=
    ⟨fun a b c => byOffsetLe_trans ws⟩
  exact List.sorted_insertionSort _ l

theorem pySort_nodup {α : Type} (le : α → α → Bool) (l : List α)
    (h : l.Nodup) : (pySort le l).Nodup :=
  ((List.perm_insertionSort _ l).nodup_iff).mpr h

theorem childrenOf_nodup (ws : List Op) (idx : Nat) :
    (childrenOf ws idx).Nodup :=
  (List.nodup_range _).filter _

theorem rootsOf_nodup (ws : List Op) : (rootsOf ws).Nodup :=
  (List.nodup_range _).filter _

theorem pairwise_disjoint_of (ops : List Op)
    (hlam : ∀ a ∈ ops, ∀ b ∈ ops, nod a b) (l : List Nat)
    (hmem : ∀ c ∈ l, c < (wrappersOf ops).length)
    (hpar : ∀ c1 ∈ l, ∀ c2 ∈ l,
      parentOf (wrappersOf ops) c1 = parentOf (wrappersOf ops) c2)
    (hnd : l.Nodup)
    (hsort : List.Sorted
      (fun a b => byOffsetLe (wrappersOf ops) a b = true) l) :
    List.Pairwise (fun a b =>
      ((wrappersOf ops).getD a dummyOp).stop ≤
        ((wrappersOf ops).getD b dummyOp).offset) l := by
  have hand := List.Pairwise.and hsort hnd
  refine List.Pairwise.imp_of_mem ?_ hand
  intro a b ha hb hab
  obtain ⟨hoff, hne⟩ := hab
  rcases Nat.lt_or_ge a b with h | h
  · exact sibling_disjoint ops hlam h (hmem b hb) (hpar a ha b hb)
  · have hba : b < a := by omega
    have hd := sibling_disjoint ops hlam hba (hmem a ha) (hpar b hb a ha)
    rw [byOffsetLe, decide_eq_true_eq] at hoff
    have hmb := wrappersOf_mem_pos (getD_mem
      (Nat.lt_trans hba (hmem a ha)))
    have hstopb : ((wrappersOf ops).getD b dummyOp).stop =
        ((wrappersOf ops).getD b dummyOp).offset +
          ((wrappersOf ops).getD b dummyOp).length := rfl
    exfalso
    have hmb2 := hmb.2
    omega

theorem chainOK_build (text : Str) (ws : List Op)
    (f : Nat → Str × Elem × Str) (e : Nat) :
    ∀ (l : List Nat) (cursor : Nat),
      (∀ c ∈ l, cursor ≤ (ws.getD c dummyOp).offset ∧
        ((ws.getD c dummyOp).stop ≤ e ∨ text.length ≤ e)) →
      List.Pairwise (fun a b =>
        (ws.getD a dummyOp).stop ≤ (ws.getD b dummyOp).offset) l →
      chainOK text cursor e
        (l.map (fun c => (ws.getD c dummyOp, f c))) := by
  intro l
  induction l with
  | nil =>
    intro cursor _ _
    exact trivial
  | cons c rest ih =>
    intro cursor hbound hpw
    rw [List.map_cons]
    refine ⟨(hbound c (List.mem_cons_self _ _)).1,
      (hbound c (List.mem_cons_self _ _)).2, ?_⟩
    apply ih
    · intro c2 hc2
      exact ⟨(List.pairwise_cons.mp hpw).1 c2 hc2,
        (hbound c2 (List.mem_cons_of_mem _ hc2)).2⟩
    · exact (List.pairwise_cons.mp hpw).2

/-- The renderer of one forest node returns exactly the witness content
of its span, with empty tail and non-geographic tag, for a laminar
wrapper family without explicit regularised attributes. -/
theorem renderWrapperF_flatW (text : Str) (sops : List Op) (ops : List Op)
    (hlam : ∀ a ∈ ops, ∀ b ∈ ops, nod a b)
    (hregn : ∀ w ∈ ops, w.kind = "regularised" →
      pyOr (w.get "regularised") (w.get "reg") = none) :
    ∀ (fuel idx : Nat), idx < (wrappersOf ops).length →
      (wrappersOf ops).length - idx ≤ fuel →
      (renderWrapperF text sops (wrappersOf ops) fuel idx).1 ++
        flatW (renderWrapperF text sops (wrappersOf ops) fuel idx).2.1 ++
        (renderWrapperF text sops (wrappersOf ops) fuel idx).2.2 =
        slice text ((wrappersOf ops).getD idx dummyOp).offset
          ((wrappersOf ops).getD idx dummyOp).stop ∧
      (renderWrapperF text sops (wrappersOf ops) fuel idx).2.1.tail =
        [] ∧
      isGeoTag
        (renderWrapperF text sops (wrappersOf ops) fuel idx).2.1.tag =
        false := by
  intro fuel
  induction fuel with
  | zero =>
    intro idx hidx hfuel
    exact absurd hidx (by omega)
  | succ fuel ih =>
    intro idx hidx hfuel
    simp only [renderWrapperF]
    set M := (pySort (byOffsetLe (wrappersOf ops))
      (childrenOf (wrappersOf ops) idx)).map (fun c =>
        ((wrappersOf ops).getD c dummyOp,
         renderWrapperF text sops (wrappersOf ops) fuel c)) with hM
    have hchil : ∀ c ∈ pySort (byOffsetLe (wrappersOf ops))
        (childrenOf (wrappersOf ops) idx),
        c ∈ childrenOf (wrappersOf ops) idx :=
      fun c hc => (pySort_mem _ _ c).mp hc
    have hitems : ∀ it ∈ M,
        it.2.1 ++ flatW it.2.2.1 ++ it.2.2.2 =
          slice text it.1.offset it.1.stop ∧ it.2.2.1.tail = [] := by
      intro it hit
      rw [hM, List.mem_map] at hit
      obtain ⟨c, hc, rfl⟩ := hit
      have hcc := childrenOf_mem_lt (hchil c hc)
      have hi := ih c hcc.2 (by omega)
      exact ⟨hi.1, hi.2.1⟩
    have hgeoit : ∀ it ∈ M, isGeoTag it.2.2.1.tag = false := by
      intro it hit
      rw [hM, List.mem_map] at hit
      obtain ⟨c, hc, rfl⟩ := hit
      have hcc := childrenOf_mem_lt (hchil c hc)
      exact (ih c hcc.2 (by omega)).2.2
    have hchain : chainOK text
        ((wrappersOf ops).getD idx dummyOp).offset
        ((wrappersOf ops).getD idx dummyOp).stop M := by
      rw [hM]
      apply chainOK_build
      · intro c hc
        have hcont := parentOf_contains (childrenOf_par (hchil c hc))
        rw [containsB, decide_eq_true_eq] at hcont
        exact ⟨hcont.1, Or.inl hcont.2⟩
      · apply pairwise_disjoint_of ops hlam
        · intro c hc
          exact (childrenOf_mem_lt (hchil c hc)).2
        · intro c1 h1 c2 h2
          rw [childrenOf_par (hchil c1 h1), childrenOf_par (hchil c2 h2)]
        · exact pySort_nodup _ _ (childrenOf_nodup _ _)
        · exact pySortOffset_sorted _ _
    have hflat := assembleGo_flatW text sops M
      ((wrappersOf ops).getD idx dummyOp).offset
      ((wrappersOf ops).getD idx dummyOp).stop hitems hchain
    have hgeo2 := assembleGo_geo text sops M
      ((wrappersOf ops).getD idx dummyOp).offset
      ((wrappersOf ops).getD idx dummyOp).stop hgeoit
    have hbw := build_wrapper_flatW text
      ((wrappersOf ops).getD idx dummyOp)
      (assembleGo text sops ((wrappersOf ops).getD idx dummyOp).stop
        ((wrappersOf ops).getD idx dummyOp).offset M)
      (hregn _ (wrappersOf_mem_pos (getD_mem hidx)).1)
      hgeo2
    refine ⟨?_, hbw.2.1, hbw.2.2⟩
    rw [hbw.1, hflat]

/-- Similarity preserved by the repair pass: same witness contribution,
same alternation-selection class, same geographic status. -/
def kidSim (k k2 : Elem) : Prop :=
  flatW k ++ k.tail = flatW k2 ++ k2.tail ∧
  ((k.tag = "abbr" ∨ k.tag = "sic") ↔
    (k2.tag = "abbr" ∨ k2.tag = "sic")) ∧
  isGeoTag k.tag = isGeoTag k2.tag

theorem kidSim_refl (k : Elem) : kidSim k k := ⟨rfl, Iff.rfl, rfl⟩

theorem forall₂_refl_kidSim (ks : List Elem) :
    List.Forall₂ kidSim ks ks :=
  List.forall₂_same.mpr (fun k _ => kidSim_refl k)

theorem flatWKids_forall₂ (g : Bool) :
    ∀ {ks ks2 : List Elem}, List.Forall₂ kidSim ks ks2 →
      flatWKids g ks = flatWKids g ks2 := by
  intro ks ks2 h
  induction h with
  | nil => rfl
  | cons hk _ ih =>
    rw [flatWKids_cons, flatWKids_cons, ih]
    obtain ⟨hfw, _, hgeo⟩ := hk
    rw [hgeo, hfw]

theorem flatW_forall₂ {t : String} {a : List (String × String)}
    {x l : Str} {ks ks2 : List Elem}
    (h : List.Forall₂ kidSim ks ks2) :
    flatW (.mk t a x ks l) = flatW (.mk t a x ks2 l) := by
  rw [flatW_eq, flatW_eq]
  by_cases ht : t = "choice"
  · rw [if_pos ht, if_pos ht]
    cases h with
    | nil => rfl
    | cons hk htail =>
      rename_i b b2 bs bs2
      cases htail with
      | nil =>
        show x ++ flatWKids false [b] = x ++ flatWKids false [b2]
        rw [flatWKids_forall₂ false
          (List.Forall₂.cons hk List.Forall₂.nil)]
      | cons hk2 htail2 =>
        rename_i c c2 cs cs2
        cases htail2 with
        | nil =>
          obtain ⟨hfw, hcls, _⟩ := hk
          obtain ⟨hfw2, _, _⟩ := hk2
          show x ++ (if b.tag = "abbr" ∨ b.tag = "sic" then
              flatW b ++ b.tail else flatW c ++ c.tail) =
            x ++ (if b2.tag = "abbr" ∨ b2.tag = "sic" then
              flatW b2 ++ b2.tail else flatW c2 ++ c2.tail)
          by_cases hb : b.tag = "abbr" ∨ b.tag = "sic"
          · rw [if_pos hb, if_pos (hcls.mp hb), hfw]
          · rw [if_neg hb, if_neg (fun hh => hb (hcls.mpr hh)), hfw2]
        | cons hk3 htail3 =>
          rename_i d d2 ds ds2
          show x ++ flatWKids false (b :: c :: d :: ds) =
            x ++ flatWKids false (b2 :: c2 :: d2 :: ds2)
          rw [flatWKids_forall₂ false
            (List.Forall₂.cons hk (List.Forall₂.cons hk2
              (List.Forall₂.cons hk3 htail3)))]
  · rw [if_neg ht, if_neg ht, flatWKids_forall₂ _ h]

mutual

theorem wrapInElem_sim (p : Op) : ∀ e : Elem, kidSim (wrapInElem p e).1 e
  | .mk t a x ks l => by
    rw [wrapInElem]
    split
    · exact kidSim_refl _
    · refine ⟨?_, ?_, ?_⟩
      · show flatW (.mk t a x (wrapKids p ks).1 l) ++
            (Elem.mk t a x (wrapKids p ks).1 l).tail =
          flatW (.mk t a x ks l) ++ (Elem.mk t a x ks l).tail
        rw [Elem_tail_mk, Elem_tail_mk,
          flatW_forall₂ (wrapKids_sim p ks)]
      · show ((Elem.mk t a x (wrapKids p ks).1 l).tag = "abbr" ∨
            (Elem.mk t a x (wrapKids p ks).1 l).tag = "sic") ↔
          ((Elem.mk t a x ks l).tag = "abbr" ∨
            (Elem.mk t a x ks l).tag = "sic")
        rw [Elem_tag_mk, Elem_tag_mk]
      · show isGeoTag (Elem.mk t a x (wrapKids p ks).1 l).tag =
          isGeoTag (Elem.mk t a x ks l).tag
        rw [Elem_tag_mk, Elem_tag_mk]

theorem wrapKids_sim (p : Op) : ∀ ks : List Elem,
    List.Forall₂ kidSim (wrapKids p ks).1 ks
  | [] => by
    rw [wrapKids]
    exact List.Forall₂.nil
  | c :: cs => by
    rw [wrapKids]
    split
    · exact List.Forall₂.cons (kidSim_refl c) (wrapKids_sim p cs)
    · split
      · rename_i hnp hc
        refine List.Forall₂.cons ⟨?_, ?_, ?_⟩ (forall₂_refl_kidSim cs)
        · rw [(withKids_parts _ _).2.2.2.2, (mkPers_parts p).2.2.2]
          rw [List.append_nil]
          rw [flatW_parts, (withKids_parts _ _).1, (mkPers_parts p).1]
          rw [if_neg (show ¬("persName" : String) = "choice" from
            by decide)]
          rw [(withKids_parts _ _).2.2.1, (mkPers_parts p).2.1]
          rw [(withKids_parts _ _).2.2.2.1]
          rw [show (("persName" : String) == "placeName") = false from
            by decide]
          rw [flatWKids_cons, flatWKids_nil]
          simp [flatW_withTail]
        · rw [(withKids_parts _ _).1, (mkPers_parts p).1, hc]
          constructor
          · intro h
            rcases h with h | h <;> exact absurd h (by decide)
          · intro h
            rcases h with h | h <;> exact absurd h (by decide)
        · rw [(withKids_parts _ _).1, (mkPers_parts p).1, hc]
          decide
      · dsimp only
        split
        · exact List.Forall₂.cons (wrapInElem_sim p c)
            (forall₂_refl_kidSim cs)
        · exact List.Forall₂.cons (kidSim_refl c) (wrapKids_sim p cs)

end

theorem wrapNodes_flatW (p : Op) :
    ∀ nds : List Node, flatWNodes (wrapNodes p nds).1 = flatWNodes nds := by
  intro nds
  induction nds with
  | nil => rfl
  | cons n rest ih =>
    cases n with
    | txt s =>
      rw [wrapNodes]
      dsimp only
      rw [flatWNodes_cons_txt, flatWNodes_cons_txt, ih]
    | el e =>
      rw [wrapNodes]
      split
      · dsimp only
        rw [flatWNodes_cons_el, flatWNodes_cons_el, ih]
      · split
        · dsimp only
          rw [flatWNodes_cons_el, flatWNodes_cons_el]
          congr 1
          rw [(withTail_parts _ _).2.2.2.2, flatW_withTail]
          congr 1
          rw [flatW_parts, (withKids_parts _ _).1, (mkPers_parts p).1]
          rw [if_neg (show ¬("persName" : String) = "choice" from
            by decide)]
          rw [(withKids_parts _ _).2.2.1, (mkPers_parts p).2.1]
          rw [(withKids_parts _ _).2.2.2.1]
          rw [show (("persName" : String) == "placeName") = false from
            by decide]
          rw [flatWKids_cons, flatWKids_nil]
          simp [flatW_withTail]
        · dsimp only
          split
          · dsimp only
            rw [flatWNodes_cons_el, flatWNodes_cons_el]
            congr 1
            exact (wrapInElem_sim p e).1
          · dsimp only
            rw [flatWNodes_cons_el, flatWNodes_cons_el, ih]

theorem unifyPerson_flatW (p : Op) :
    ∀ (cs : List Op) (nds : List Node),
      flatWNodes (unifyPerson p nds cs) = flatWNodes nds := by
  intro cs
  induction cs with
  | nil =>
    intro nds
    rfl
  | cons c rest ih =>
    intro nds
    rw [unifyPerson]
    split
    · dsimp only
      split
      · exact wrapNodes_flatW p nds
      · rw [ih]
        exact wrapNodes_flatW p nds
    · exact ih nds

theorem unify_flatW (cs : List Op) :
    ∀ (ps : List Op) (nds : List Node),
      flatWNodes (unify nds ps cs) = flatWNodes nds := by
  intro ps
  induction ps with
  | nil =>
    intro nds
    rfl
  | cons p rest ih =>
    intro nds
    rw [unify, List.foldl_cons]
    rw [show List.foldl (fun acc p2 => unifyPerson p2 acc cs)
      (unifyPerson p nds cs) rest =
      unify (unifyPerson p nds cs) rest cs from rfl]
    rw [ih, unifyPerson_flatW]

/-- Claim C1 (amended): for a laminar span family (pairwise nested or
disjoint intervals) with no explicit regularised attribute, the witness
projection of the rendered node sequence reproduces the input text
exactly.  (For crossing spans the renderer duplicates the overlap, and
an explicit regularised attribute replaces witness text: see the
counterexample.) -/
theorem claim_C1_amended (text : Str) (ops : List Op)
    (hlam : ∀ a ∈ ops, ∀ b ∈ ops, nod a b)
    (hregn : ∀ w ∈ ops, w.kind = "regularised" →
      pyOr (w.get "regularised") (w.get "reg") = none) :
    flatWNodes (build_inline_nodes_for_line text ops) = text := by
  simp only [build_inline_nodes_for_line]
  rw [unify_flatW]
  split
  · rw [render_plain_flatW, slice_zero_length]
  · have hroots : ∀ r ∈ pySort (byOffsetLe (wrappersOf ops))
        (rootsOf (wrappersOf ops)), r ∈ rootsOf (wrappersOf ops) :=
      fun r hr => (pySort_mem _ _ r).mp hr
    have hitems : ∀ it ∈ (pySort (byOffsetLe (wrappersOf ops))
        (rootsOf (wrappersOf ops))).map (fun r =>
          ((wrappersOf ops).getD r dummyOp,
           renderWrapper text (style_ops_of ops) (wrappersOf ops) r)),
        it.2.1 ++ flatW it.2.2.1 ++ it.2.2.2 =
          slice text it.1.offset it.1.stop ∧ it.2.2.1.tail = [] := by
      intro it hit
      rw [List.mem_map] at hit
      obtain ⟨r, hr, rfl⟩ := hit
      have hrl := rootsOf_lt (hroots r hr)
      have hi := renderWrapperF_flatW text (style_ops_of ops) ops hlam
        hregn (wrappersOf ops).length r hrl (by omega)
      exact ⟨hi.1, hi.2.1⟩
    have hchain : chainOK text 0 text.length
        ((pySort (byOffsetLe (wrappersOf ops))
          (rootsOf (wrappersOf ops))).map (fun r =>
            ((wrappersOf ops).getD r dummyOp,
             renderWrapper text (style_ops_of ops) (wrappersOf ops) r))) := by
      apply chainOK_build
      · intro r _
        exact ⟨Nat.zero_le _, Or.inr (Nat.le_refl _)⟩
      · apply pairwise_disjoint_of ops hlam
        · intro r hr
          exact rootsOf_lt (hroots r hr)
        · intro r1 h1 r2 h2
          rw [rootsOf_par (hroots r1 h1), rootsOf_par (hroots r2 h2)]
        · exact pySort_nodup _ _ (rootsOf_nodup _)
        · exact pySortOffset_sorted _ _
    rw [assembleGo_flatW text (style_ops_of ops) _ 0 text.length hitems
      hchain]
    rw [slice_zero_length]

/-- Witness for the amended C1 on nested person and abbrev spans. -/
theorem claim_C1_witness :
    flatWNodes (build_inline_nodes_for_line (toStr "Marcus")
      [⟨"person", 0, 6, []⟩, ⟨"abbrev", 1, 4, []⟩]) = toStr "Marcus" :=
  claim_C1_amended (toStr "Marcus")
    [⟨"person", 0, 6, []⟩, ⟨"abbrev", 1, 4, []⟩] (by decide) (by decide)

end P2T
